import Mathlib

/-!
Verification of the `simplefractions` repository.

This file embeds the algorithms of `simplefractions` in Lean:

* `posLoop` / `simplest_in_interval_pos` embed the while loop of
  `_simplest_in_interval_pos` in `_simplest_in_interval.py` (the Python
  `while` loop is embedded as a fuel-indexed recursion; the fuel passed by
  `simplest_in_interval_pos` is proved sufficient for all valid inputs).
* `simplestInInterval` embeds `_simplest_in_interval` from
  `_simplest_in_interval.py` (optional endpoints, `Except` for the
  `ValueError`s raised by the Python code).
* a second family of definitions embeds the generator-based implementation
  in `__init__.py` (`_esb_path`, `_common_prefix`, `_from_esb_path`,
  `simplest_in_interval`, `_interval_rounding_to`, `simplest_from_float`).

Theorems then establish membership, minimality, uniqueness, the unimodular
loop invariant, termination, and the equivalence of the two implementations.
-/

namespace SimpleFractions

/-- Python booleans used in integer arithmetic (`s - st_closed`). -/
def b2i (b : Bool) : Int := if b then 1 else 0

/-- The `while` loop of `_simplest_in_interval_pos`, with explicit fuel.
State: endpoint fractions `s/t` (closure `stc`) and `u/v` (closure `uvc`)
and the 2×2 matrix `(a, b, c, d)`.  Body (faithful to the source):
`q = (s - st_closed) // t`; `s, t, u, v = v, u - q*v, t, s - q*t`;
`a, b, c, d = b + q*a, a, d + q*c, c`; closures swap. -/
def posLoop : Nat → Int → Int → Int → Int → Bool → Bool → Int → Int → Int → Int → Int × Int
  | 0, _, _, _, _, _, _, a, b, c, d => (a + b, c + d)
  | fuel + 1, s, t, u, v, stc, uvc, a, b, c, d =>
    if t ≤ s - b2i stc then
      let q := (s - b2i stc).fdiv t
      posLoop fuel v (u - q * v) t (s - q * t) uvc stc (b + q * a) a (d + q * c) c
    else (a + b, c + d)

/-- Fuel that is always sufficient (proved below for valid inputs). -/
def posFuel (s t u v : Int) : Nat := s.natAbs + t.natAbs + u.natAbs + v.natAbs + 1

/-- Embedding of `_simplest_in_interval_pos(left_numerator, left_denominator,
left_closed, right_numerator, right_denominator, right_closed)`:
`s, t = ln + ld, ld`; `u, v = rn + rd, rd`; matrix starts `(1, -1, 0, 1)`. -/
def simplest_in_interval_pos (ln ld : Int) (lc : Bool) (rn rd : Int) (rc : Bool) : Int × Int :=
  posLoop (posFuel (ln + ld) ld (rn + rd) rd) (ln + ld) ld (rn + rd) rd lc rc 1 (-1) 0 1

/-- The `nonempty_interval` test of `_simplest_in_interval`. -/
def nonemptyB (left right : Option ℚ) (includeLeft includeRight : Bool) : Bool :=
  match left, right with
  | none, _ => true
  | _, none => true
  | some l, some r => decide (l < r) || (decide (l = r) && includeLeft && includeRight)

/-- Sentinel encoding of the left endpoint: `-1 if left is None else left.numerator`. -/
def lnum (o : Option ℚ) : Int := match o with | none => -1 | some l => l.num

/-- `0 if left is None else left.denominator`. -/
def lden (o : Option ℚ) : Int := match o with | none => 0 | some l => (l.den : Int)

/-- `1 if right is None else right.numerator`. -/
def rnum (o : Option ℚ) : Int := match o with | none => 1 | some r => r.num

/-- `0 if right is None else right.denominator`. -/
def rden (o : Option ℚ) : Int := match o with | none => 0 | some r => (r.den : Int)

/-- The call of `_simplest_in_interval_pos` made by `_simplest_in_interval`:
`None` endpoints become the sentinel pairs `(-1, 0)` / `(1, 0)`, finite
endpoints pass their numerator and denominator. -/
def siiPos (left right : Option ℚ) (includeLeft includeRight : Bool) : Int × Int :=
  simplest_in_interval_pos (lnum left) (lden left) includeLeft
    (rnum right) (rden right) includeRight

/-- The negate-normalize-call-reduce body of `_simplest_in_interval`
(everything after the validation checks). -/
def siiCore (left right : Option ℚ) (includeLeft includeRight : Bool) : ℚ :=
  let negate : Bool :=
    match right with
    | none => false
    | some r => decide (r < 0) || (decide (r = 0) && !includeRight)
  if negate then
    let nd := siiPos (right.map fun r => -r) (left.map fun l => -l)
      includeRight includeLeft
    Rat.divInt (-nd.1) nd.2
  else
    let nd := siiPos left right includeLeft includeRight
    Rat.divInt nd.1 nd.2

/-- Embedding of `_simplest_in_interval(left, right, include_left, include_right)`
from `_simplest_in_interval.py`.  `none` endpoints are `-inf` / `inf`;
the three `ValueError`s become `Except.error` with the Python messages. -/
def simplestInInterval (left right : Option ℚ) (includeLeft includeRight : Bool) :
    Except String ℚ :=
  if left.isNone ∧ includeLeft then .error "interval may not contain -infinity"
  else if right.isNone ∧ includeRight then .error "interval may not contain infinity"
  else if !nonemptyB left right includeLeft includeRight then .error "empty interval"
  else .ok (siiCore left right includeLeft includeRight)

/-- Lower-bound test by cross multiplication: the fraction `x/y` (with
`y ≥ 1`) lies above the bound `s/t` (closed if `c`).  With the sentinel
`t = 0, s < 0` for `-∞` this is always true. -/
def aboveB (s t : Int) (c : Bool) (x y : Int) : Prop :=
  if c then s * y ≤ x * t else s * y < x * t

/-- Upper-bound test by cross multiplication: `x/y` lies below `u/v`
(closed if `c`).  With the sentinel `v = 0, u ≥ 1` for `+∞` this is
always true. -/
def belowB (u v : Int) (c : Bool) (x y : Int) : Prop :=
  if c then x * v ≤ u * y else x * v < u * y

/-- Membership of `x/y` in the interval with endpoints `s/t` and `u/v`. -/
def memJ (s t : Int) (stc : Bool) (u v : Int) (uvc : Bool) (x y : Int) : Prop :=
  aboveB s t stc x y ∧ belowB u v uvc x y

/-- Invariant of the `posLoop` state, satisfied at every call site that the
loop actually reaches when the input interval is a nonempty subinterval of
the positive reals. -/
def JInv (s t u v : Int) (stc uvc : Bool) : Prop :=
  1 ≤ t ∧ 0 ≤ v ∧ (0 < s ∨ (s = 0 ∧ stc = false)) ∧
    (v = 0 → 1 ≤ u ∧ uvc = false) ∧
    (s * v < u * t ∨ (s * v = u * t ∧ stc = true ∧ uvc = true)) ∧
    (v < u ∨ (u = v ∧ uvc = true))

/-- Membership of a rational in the interval described by optional
endpoints and inclusion flags, exactly as the claims state it. -/
def memQ (left right : Option ℚ) (includeLeft includeRight : Bool) (x : ℚ) : Prop :=
  (∀ l, left = some l → if includeLeft then l ≤ x else l < x) ∧
  (∀ r, right = some r → if includeRight then x ≤ r else x < r)

/-- The interval description is nonempty (extended order). -/
def NonemptyI (left right : Option ℚ) (includeLeft includeRight : Bool) : Prop :=
  match left, right with
  | none, _ => True
  | _, none => True
  | some l, some r => l < r ∨ (l = r ∧ includeLeft = true ∧ includeRight = true)

/-! ### Basic facts about the loop step -/

theorem posLoop_succ_of_cond {s t : Int} (stc : Bool) (h : t ≤ s - b2i stc)
    (fuel : Nat) (u v : Int) (uvc : Bool) (a b c d : Int) :
    posLoop (fuel + 1) s t u v stc uvc a b c d =
      posLoop fuel v (u - ((s - b2i stc).fdiv t) * v) t (s - ((s - b2i stc).fdiv t) * t)
        uvc stc (b + ((s - b2i stc).fdiv t) * a) a (d + ((s - b2i stc).fdiv t) * c) c := by
  simp only [posLoop, if_pos h]

theorem posLoop_succ_of_done {s t : Int} (stc : Bool) (h : ¬ t ≤ s - b2i stc)
    (fuel : Nat) (u v : Int) (uvc : Bool) (a b c d : Int) :
    posLoop (fuel + 1) s t u v stc uvc a b c d = (a + b, c + d) := by
  simp only [posLoop, if_neg h]

/-- Floor-division bracketing: for `t > 0`, `q = a.fdiv t` satisfies
`q * t ≤ a < (q + 1) * t`. -/
theorem fdiv_bracket (a : Int) {t : Int} (ht : 0 < t) :
    a.fdiv t * t ≤ a ∧ a < (a.fdiv t + 1) * t := by
  rw [Int.fdiv_eq_ediv _ ht.le]
  exact ⟨Int.ediv_mul_le a ht.ne', Int.lt_ediv_add_one_mul_self a ht⟩

theorem quotient_ge_one {s t : Int} {stc : Bool} (ht : 1 ≤ t) (h : t ≤ s - b2i stc) :
    1 ≤ (s - b2i stc).fdiv t := by
  obtain ⟨h1, h2⟩ := fdiv_bracket (s - b2i stc) (by omega : (0:Int) < t)
  nlinarith [h1, h2]

/-- The loop-state invariant is preserved by one iteration of the loop. -/
theorem JInv_step {s t u v : Int} {stc uvc : Bool}
    (hinv : JInv s t u v stc uvc) (h : t ≤ s - b2i stc) :
    JInv v (u - ((s - b2i stc).fdiv t) * v) t (s - ((s - b2i stc).fdiv t) * t) uvc stc := by
  obtain ⟨ht, hv, hs, hvu, hN, hR⟩ := hinv
  obtain ⟨hq1, hq2⟩ := fdiv_bracket (s - b2i stc) (by omega : (0:Int) < t)
  have hqpos : 1 ≤ (s - b2i stc).fdiv t := quotient_ge_one ht h
  set q := (s - b2i stc).fdiv t with hq
  have hadj : 0 ≤ b2i stc ∧ b2i stc ≤ 1 := by unfold b2i; split <;> omega
  have hspos : 1 ≤ s := by omega
  have hu : 1 ≤ u := by
    rcases Int.lt_or_le 0 v with hv1 | hv1
    · have hsv : 0 < s * v := mul_pos (by omega) hv1
      rcases hN with hN | ⟨hN, _, _⟩ <;> nlinarith
    · have hv0 : v = 0 := le_antisymm hv1 hv
      exact (hvu hv0).1
  have ht' : 1 ≤ u - q * v := by
    rcases Int.lt_or_le 0 v with hv1 | hv1
    · rcases hN with hN | ⟨hN, hstc, huvc⟩
      · have h1 : q * v * t < u * t := by nlinarith
        have hlt : q * v < u := lt_of_mul_lt_mul_right h1 (by omega : (0:Int) ≤ t)
        omega
    -- closed-closed equality case
      · have hstc1 : b2i stc = 1 := by simp [b2i, hstc]
        have h1 : q * v * t < u * t := by nlinarith
        have hlt : q * v < u := lt_of_mul_lt_mul_right h1 (by omega : (0:Int) ≤ t)
        omega
    · have hv0 : v = 0 := le_antisymm hv1 hv
      have hu1 := (hvu hv0).1
      have : q * v = 0 := by rw [hv0, mul_zero]
      omega
  refine ⟨ht', by nlinarith, ?_, ?_, ?_, ?_⟩
  · rcases Int.lt_or_le 0 v with hv1 | hv1
    · exact Or.inl hv1
    · have hv0 : v = 0 := le_antisymm hv1 hv
      exact Or.inr ⟨hv0, (hvu hv0).2⟩
  · intro hzero
    have hb : b2i stc ≤ s - q * t := by nlinarith
    have : b2i stc = 0 := by omega
    have hstc : stc = false := by cases stc <;> simp_all [b2i]
    exact ⟨ht, hstc⟩
  · rcases hN with hN | ⟨hN, hstc, huvc⟩
    · exact Or.inl (by nlinarith)
    · exact Or.inr ⟨by nlinarith, huvc, hstc⟩
  · rcases hadj with ⟨ha0, ha1⟩
    have hexp : (q + 1) * t = q * t + t := by ring
    by_cases hstc : stc
    · have : b2i stc = 1 := by simp [b2i, hstc]
      rcases Int.lt_or_le (s - q * t) t with h1 | h1
      · exact Or.inl h1
      · have heq : s - q * t = t := by omega
        exact Or.inr ⟨heq.symm, hstc⟩
    · have : b2i stc = 0 := by simp [b2i, hstc]
      exact Or.inl (by omega)

/-- During the loop, the fuel measure strictly decreases. -/
theorem posFuel_dec {s t u v : Int} {stc uvc : Bool}
    (hinv : JInv s t u v stc uvc) (h : t ≤ s - b2i stc) :
    posFuel v (u - ((s - b2i stc).fdiv t) * v) t (s - ((s - b2i stc).fdiv t) * t)
      < posFuel s t u v := by
  obtain ⟨ht, hv, hs, hvu, hN, hR⟩ := hinv
  obtain ⟨hq1, hq2⟩ := fdiv_bracket (s - b2i stc) (by omega : (0:Int) < t)
  have hqpos : 1 ≤ (s - b2i stc).fdiv t := quotient_ge_one ht h
  have hstep := JInv_step ⟨ht, hv, hs, hvu, hN, hR⟩ h
  set q := (s - b2i stc).fdiv t with hq
  have hadj : 0 ≤ b2i stc ∧ b2i stc ≤ 1 := by unfold b2i; split <;> omega
  obtain ⟨ht', hv', _, _, _, _⟩ := hstep
  have hspos : 1 ≤ s := by omega
  have hu : 1 ≤ u := by
    rcases Int.lt_or_le 0 v with hv1 | hv1
    · have hsv : 0 < s * v := mul_pos (by omega) hv1
      rcases hN with hN | ⟨hN, _, _⟩ <;> nlinarith
    · have hv0 : v = 0 := le_antisymm hv1 hv
      exact (hvu hv0).1
  have e1 : (s.natAbs : Int) = s := Int.natAbs_of_nonneg (by omega)
  have e2 : (t.natAbs : Int) = t := Int.natAbs_of_nonneg (by omega)
  have e3 : (u.natAbs : Int) = u := Int.natAbs_of_nonneg (by omega)
  have e4 : (v.natAbs : Int) = v := Int.natAbs_of_nonneg (by omega)
  have e5 : ((u - q * v).natAbs : Int) = u - q * v := Int.natAbs_of_nonneg (by omega)
  have e6 : ((s - q * t).natAbs : Int) = s - q * t := Int.natAbs_of_nonneg (by omega)
  have hdec : (v.natAbs + (u - q * v).natAbs + t.natAbs + (s - q * t).natAbs : Int)
      < (s.natAbs + t.natAbs + u.natAbs + v.natAbs : Int) := by
    rw [e1, e2, e3, e4, e5, e6]
    nlinarith
  unfold posFuel
  omega

/-! ### Membership transfer under the Möbius step `z ↦ q + 1/z` -/

theorem aboveB_step_iff (v u q X Y : Int) (uvc : Bool) :
    aboveB v (u - q * v) uvc X Y ↔ belowB u v uvc (q * X + Y) X := by
  unfold aboveB belowB
  cases uvc <;> simp only [if_true, if_false, Bool.false_eq_true] <;>
    constructor <;> intro hh <;> nlinarith [hh]

theorem belowB_step_iff (s t q X Y : Int) (stc : Bool) :
    belowB t (s - q * t) stc X Y ↔ aboveB s t stc (q * X + Y) X := by
  unfold aboveB belowB
  cases stc <;> simp only [if_true, if_false, Bool.false_eq_true] <;>
    constructor <;> intro hh <;> nlinarith [hh]

theorem memJ_step_iff (s t u v q X Y : Int) (stc uvc : Bool) :
    memJ v (u - q * v) uvc t (s - q * t) stc X Y ↔
      memJ s t stc u v uvc (q * X + Y) X := by
  unfold memJ
  rw [aboveB_step_iff, belowB_step_iff]
  exact And.comm

/-- Any member of an interval satisfying the invariant has positive
numerator. -/
theorem member_num_pos {s t X Y : Int} {stc : Bool} (ht : 1 ≤ t) (hY : 1 ≤ Y)
    (hs : 0 < s ∨ (s = 0 ∧ stc = false)) (hab : aboveB s t stc X Y) : 1 ≤ X := by
  unfold aboveB at hab
  have hXt : 1 ≤ X * t := by
    rcases hs with hs | ⟨hs0, hstc⟩
    · have : 0 < s * Y := mul_pos hs (by omega)
      cases stc <;> simp_all <;> nlinarith
    · subst hs0; rw [hstc] at hab; simp at hab; nlinarith [hab]
  nlinarith

/-- Any member of the interval lies strictly above `q` after the loop
condition holds, so its pullback denominator is at least 1. -/
theorem member_pullback_pos {s t X Y : Int} {stc : Bool} (ht : 1 ≤ t) (hY : 1 ≤ Y)
    (_h : t ≤ s - b2i stc) (hab : aboveB s t stc X Y) :
    1 ≤ X - (s - b2i stc).fdiv t * Y := by
  obtain ⟨hq1, hq2⟩ := fdiv_bracket (s - b2i stc) (by omega : (0:Int) < t)
  set q := (s - b2i stc).fdiv t with hq
  unfold aboveB at hab
  have hqY : q * Y * t < X * t := by
    by_cases hstc : stc
    · have hb : b2i stc = 1 := by simp [b2i, hstc]
      rw [if_pos hstc] at hab
      nlinarith
    · have hb : b2i stc = 0 := by simp [b2i, hstc]
      rw [if_neg hstc] at hab
      nlinarith
  have := lt_of_mul_lt_mul_right hqY (by omega : (0:Int) ≤ t)
  omega

/-- Master theorem for the loop: started in an invariant state with enough
fuel, `posLoop` returns the matrix applied to the simplest fraction `n/D`
of the current interval; `n/D` is reduced, lies in the interval, and is
dominated by every other fraction in the interval. -/
theorem loopMain (fuel : Nat) :
    ∀ (s t u v : Int) (stc uvc : Bool) (a b c d : Int),
    JInv s t u v stc uvc → posFuel s t u v ≤ fuel →
    ∃ n D : Int,
      posLoop fuel s t u v stc uvc a b c d = (a * n + b * D, c * n + d * D) ∧
      1 ≤ D ∧ D ≤ n ∧ Int.gcd n D = 1 ∧ memJ s t stc u v uvc n D ∧
      ∀ X Y : Int, 1 ≤ Y → memJ s t stc u v uvc X Y → n ≤ X ∧ D ≤ Y := by
  induction fuel with
  | zero => intro s t u v stc uvc a b c d _ hfuel; simp [posFuel] at hfuel
  | succ f ih =>
    intro s t u v stc uvc a b c d hinv hfuel
    by_cases h : t ≤ s - b2i stc
    · -- loop body executes
      obtain ⟨ht, hv, hs, hvu, hN, hR⟩ := hinv
      have hinv' : JInv s t u v stc uvc := ⟨ht, hv, hs, hvu, hN, hR⟩
      have hqpos : 1 ≤ (s - b2i stc).fdiv t := quotient_ge_one ht h
      have hstep := JInv_step hinv' h
      have hdec := posFuel_dec hinv' h
      have hrw := posLoop_succ_of_cond stc h f u v uvc a b c d
      set q := (s - b2i stc).fdiv t with hq
      obtain ⟨n', D', heq, hD1, hDn, hgcd, hmem, hmin⟩ :=
        ih v (u - q * v) t (s - q * t) uvc stc (b + q * a) a (d + q * c) c hstep
          (by omega)
      refine ⟨q * n' + D', n', ?_, by omega, by nlinarith, ?_, ?_, ?_⟩
      · rw [hrw, heq]
        simp only [Prod.mk.injEq]
        exact ⟨by ring, by ring⟩
      · -- gcd
        have hco : IsCoprime n' D' := Int.gcd_eq_one_iff_coprime.mp hgcd
        have hco2 : IsCoprime (D' + n' * q) n' := hco.symm.add_mul_left_left q
        have : q * n' + D' = D' + n' * q := by ring
        rw [this, Int.gcd_eq_one_iff_coprime]
        exact hco2
      · exact (memJ_step_iff s t u v q n' D' stc uvc).mp hmem
      · intro X Y hY hmemXY
        have hab : aboveB s t stc X Y := hmemXY.1
        have hXq : 1 ≤ X - q * Y := by
          have := member_pullback_pos ht hY h hab
          rw [← hq] at this
          exact this
        have hmem' : memJ v (u - q * v) uvc t (s - q * t) stc Y (X - q * Y) := by
          rw [memJ_step_iff s t u v q Y (X - q * Y) stc uvc]
          have : q * Y + (X - q * Y) = X := by ring
          rw [this]
          exact hmemXY
        obtain ⟨h1, h2⟩ := hmin Y (X - q * Y) hXq hmem'
        constructor
        · nlinarith
        · exact h1
    · -- loop exits
      obtain ⟨ht, hv, hs, hvu, hN, hR⟩ := hinv
      refine ⟨1, 1, ?_, le_refl 1, le_refl 1, by decide, ⟨?_, ?_⟩, ?_⟩
      · rw [posLoop_succ_of_done stc h f u v uvc a b c d]
        simp only [Prod.mk.injEq]
        exact ⟨by ring, by ring⟩
      · unfold aboveB
        by_cases hstc : stc
        · have hb : b2i stc = 1 := by simp [b2i, hstc]
          rw [if_pos hstc]; omega
        · have hb : b2i stc = 0 := by simp [b2i, hstc]
          rw [if_neg hstc]; omega
      · unfold belowB
        rcases hR with hR | ⟨hR, huvc⟩
        · by_cases huvc : uvc
          · rw [if_pos huvc]; omega
          · rw [if_neg huvc]; omega
        · rw [if_pos huvc]; omega
      · intro X Y hY hmemXY
        exact ⟨member_num_pos ht hY hs hmemXY.1, hY⟩

/-! ### Correctness of `simplest_in_interval_pos` -/

/-- Preconditions documented for `_simplest_in_interval_pos`: sentinel pairs
for infinities, right endpoint positive (or zero and closed), nonempty
interval. -/
def PosPre (ln ld : Int) (lc : Bool) (rn rd : Int) (rc : Bool) : Prop :=
  0 ≤ ld ∧ 0 ≤ rd ∧
    (ld = 0 → ln = -1 ∧ lc = false) ∧
    (rd = 0 → rn = 1 ∧ rc = false) ∧
    (1 ≤ rn ∨ (rn = 0 ∧ rc = true)) ∧
    (ln * rd < rn * ld ∨ (ln * rd = rn * ld ∧ lc = true ∧ rc = true) ∨ (ld = 0 ∧ rd = 0))

theorem aboveB_shift_iff (ln ld X Y : Int) (c : Bool) :
    aboveB (ln + ld) ld c X Y ↔ aboveB ln ld c (X - Y) Y := by
  unfold aboveB
  cases c <;> simp only [if_true, if_false, Bool.false_eq_true] <;>
    constructor <;> intro hh <;> nlinarith [hh]

theorem belowB_shift_iff (rn rd X Y : Int) (c : Bool) :
    belowB (rn + rd) rd c X Y ↔ belowB rn rd c (X - Y) Y := by
  unfold belowB
  cases c <;> simp only [if_true, if_false, Bool.false_eq_true] <;>
    constructor <;> intro hh <;> nlinarith [hh]

theorem memJ_shift_iff (ln ld rn rd X Y : Int) (lc rc : Bool) :
    memJ (ln + ld) ld lc (rn + rd) rd rc X Y ↔ memJ ln ld lc rn rd rc (X - Y) Y := by
  unfold memJ
  rw [aboveB_shift_iff, belowB_shift_iff]

/-- Correctness of the core routine under its documented preconditions:
the returned pair `(n, d)` is a reduced nonnegative fraction that lies in
the input interval, and its numerator/denominator are dominated by those of
every fraction in the interval. -/
theorem pos_correct (ln ld : Int) (lc : Bool) (rn rd : Int) (rc : Bool)
    (hpre : PosPre ln ld lc rn rd rc) :
    ∃ n d : Int,
      simplest_in_interval_pos ln ld lc rn rd rc = (n, d) ∧
      1 ≤ d ∧ 0 ≤ n ∧ Int.gcd n d = 1 ∧ memJ ln ld lc rn rd rc n d ∧
      ∀ X Y : Int, 1 ≤ Y → memJ ln ld lc rn rd rc X Y → n ≤ |X| ∧ d ≤ Y := by
  obtain ⟨hld, hrd, hldz, hrdz, hrpos, hne⟩ := hpre
  have hadj : 0 ≤ b2i lc ∧ b2i lc ≤ 1 := by unfold b2i; split <;> omega
  by_cases hA : ln < b2i lc
  · -- the interval contains zero; the loop is never entered
    have hdone : ¬ (ld ≤ ln + ld - b2i lc) := by omega
    refine ⟨0, 1, ?_, le_refl 1, le_refl 0, by decide, ⟨?_, ?_⟩, ?_⟩
    · unfold simplest_in_interval_pos posFuel
      rw [posLoop_succ_of_done lc hdone]
      norm_num
    · unfold aboveB
      by_cases hlc : lc
      · have hb : b2i lc = 1 := by simp [b2i, hlc]
        rw [if_pos hlc]; omega
      · have hb : b2i lc = 0 := by simp [b2i, hlc]
        rw [if_neg hlc]; omega
    · unfold belowB
      by_cases hrc : rc
      · rw [if_pos hrc]; omega
      · rw [if_neg hrc]
        rcases hrpos with hrn | ⟨_, hrc'⟩
        · omega
        · simp [hrc'] at hrc
    · intro X Y hY _
      constructor
      · exact abs_nonneg X
      · exact hY
  · -- the interval is confined to the positive half line
    have hln : 0 ≤ ln := by omega
    have hlc' : 0 < ln ∨ (ln = 0 ∧ lc = false) := by
      by_cases hlc : lc
      · have hb : b2i lc = 1 := by simp [b2i, hlc]
        left; omega
      · have hb : b2i lc = 0 := by simp [b2i, hlc]
        rcases Int.lt_or_le 0 ln with h1 | h1
        · exact Or.inl h1
        · exact Or.inr ⟨by omega, by simp [hlc]⟩
    have hld1 : 1 ≤ ld := by
      rcases Int.lt_or_le 0 ld with h1 | h1
      · omega
      · have h0 : ld = 0 := by omega
        obtain ⟨h2, _⟩ := hldz h0
        omega
    have hinv : JInv (ln + ld) ld (rn + rd) rd lc rc := by
      refine ⟨hld1, hrd, Or.inl (by omega), ?_, ?_, ?_⟩
      · intro h0
        obtain ⟨h1, h2⟩ := hrdz h0
        constructor
        · omega
        · exact h2
      · rcases hne with hne | hne | hne
        · left; nlinarith
        · right
          exact ⟨by nlinarith [hne.1], hne.2.1, hne.2.2⟩
        · omega
      · rcases hrpos with h1 | ⟨h1, h2⟩
        · left; omega
        · exact Or.inr ⟨by omega, h2⟩
    -- peel the first loop iteration: afterwards the accumulated matrix is
    -- nonnegative, which is what the domination argument uses
    have hcond : ld ≤ (ln + ld) - b2i lc := by omega
    have hstep := JInv_step hinv hcond
    have hdec := posFuel_dec hinv hcond
    have hqge : 1 ≤ ((ln + ld) - b2i lc).fdiv ld := quotient_ge_one hld1 hcond
    obtain ⟨hq1, hq2⟩ := fdiv_bracket ((ln + ld) - b2i lc) (by omega : (0:Int) < ld)
    set q := ((ln + ld) - b2i lc).fdiv ld with hqdef
    obtain ⟨n', D', heq, hD1, hDn, hgcd, hmem, hmin⟩ :=
      loopMain (posFuel (ln + ld) ld (rn + rd) rd - 1) rd ((rn + rd) - q * rd) ld
        ((ln + ld) - q * ld) rc lc ((-1) + q * 1) 1 (1 + q * 0) 0 hstep (by omega)
    refine ⟨(q - 1) * n' + D', n', ?_, by omega, by nlinarith, ?_, ?_, ?_⟩
    · unfold simplest_in_interval_pos
      have hfs : posFuel (ln + ld) ld (rn + rd) rd =
          (posFuel (ln + ld) ld (rn + rd) rd - 1) + 1 := by
        unfold posFuel; omega
      rw [hfs, posLoop_succ_of_cond lc hcond, ← hqdef, heq]
      simp only [Prod.mk.injEq]
      exact ⟨by ring, by ring⟩
    · have hco : IsCoprime n' D' := Int.gcd_eq_one_iff_coprime.mp hgcd
      have hco2 : IsCoprime (D' + n' * (q - 1)) n' := hco.symm.add_mul_left_left (q - 1)
      have he : (q - 1) * n' + D' = D' + n' * (q - 1) := by ring
      rw [he, Int.gcd_eq_one_iff_coprime]
      exact hco2
    · have h1 : memJ (ln + ld) ld lc (rn + rd) rd rc (q * n' + D') n' :=
        (memJ_step_iff (ln + ld) ld (rn + rd) rd q n' D' lc rc).mp hmem
      have h2 := (memJ_shift_iff ln ld rn rd (q * n' + D') n' lc rc).mp h1
      have he : q * n' + D' - n' = (q - 1) * n' + D' := by ring
      rw [he] at h2
      exact h2
    · intro X Y hY hmemXY
      have hX1 : 1 ≤ X := member_num_pos hld1 hY hlc' hmemXY.1
      have hmemS : memJ (ln + ld) ld lc (rn + rd) rd rc (X + Y) Y := by
        rw [memJ_shift_iff]
        have he : X + Y - Y = X := by ring
        rw [he]
        exact hmemXY
      have hpb : 1 ≤ (X + Y) - q * Y := by
        have := member_pullback_pos hld1 hY hcond hmemS.1
        rw [← hqdef] at this
        exact this
      have hmem1 : memJ rd ((rn + rd) - q * rd) rc ld ((ln + ld) - q * ld) lc
          Y ((X + Y) - q * Y) := by
        rw [memJ_step_iff (ln + ld) ld (rn + rd) rd q Y ((X + Y) - q * Y) lc rc]
        have he : q * Y + (X + Y - q * Y) = X + Y := by ring
        rw [he]
        exact hmemS
      obtain ⟨h1, h2⟩ := hmin Y ((X + Y) - q * Y) hpb hmem1
      have habs : |X| = X := abs_of_pos (by omega)
      rw [habs]
      constructor
      · nlinarith
      · exact h1

/-! ### Bridging integer membership and rational membership -/

theorem divInt_num_den {n d : Int} (hd : 0 < d) (hg : Int.gcd n d = 1) :
    (Rat.divInt n d).num = n ∧ ((Rat.divInt n d).den : Int) = d := by
  rw [Rat.divInt_eq_div]
  exact ⟨Rat.num_div_eq_of_coprime hd hg, Rat.den_div_eq_of_coprime hd hg⟩

theorem lower_mem_iff (left : Option ℚ) (il : Bool) (x : ℚ) :
    (∀ l, left = some l → if il then l ≤ x else l < x) ↔
      aboveB (lnum left) (lden left) il x.num (x.den : Int) := by
  have hden : (0:Int) < (x.den : Int) := Int.ofNat_pos.mpr x.pos
  cases left with
  | none =>
    simp only [reduceCtorEq, false_implies, forall_const, true_iff]
    unfold aboveB lnum lden
    cases il <;> simp <;> omega
  | some l =>
    unfold aboveB lnum lden
    constructor
    · intro h
      have := h l rfl
      cases il with
      | false =>
        simp only [if_false, Bool.false_eq_true] at this ⊢
        exact Rat.lt_def.mp this
      | true =>
        simp only [if_true] at this ⊢
        exact Rat.le_def.mp this
    · intro h l' hl'
      cases hl'
      cases il with
      | false =>
        simp only [if_false, Bool.false_eq_true] at h ⊢
        exact Rat.lt_def.mpr h
      | true =>
        simp only [if_true] at h ⊢
        exact Rat.le_def.mpr h

theorem upper_mem_iff (right : Option ℚ) (ir : Bool) (x : ℚ) :
    (∀ r, right = some r → if ir then x ≤ r else x < r) ↔
      belowB (rnum right) (rden right) ir x.num (x.den : Int) := by
  have hden : (0:Int) < (x.den : Int) := Int.ofNat_pos.mpr x.pos
  cases right with
  | none =>
    simp only [reduceCtorEq, false_implies, forall_const, true_iff]
    unfold belowB rnum rden
    cases ir <;> simp <;> omega
  | some r =>
    unfold belowB rnum rden
    constructor
    · intro h
      have := h r rfl
      cases ir with
      | false =>
        simp only [if_false, Bool.false_eq_true] at this ⊢
        exact Rat.lt_def.mp this
      | true =>
        simp only [if_true] at this ⊢
        exact Rat.le_def.mp this
    · intro h r' hr'
      cases hr'
      cases ir with
      | false =>
        simp only [if_false, Bool.false_eq_true] at h ⊢
        exact Rat.lt_def.mpr h
      | true =>
        simp only [if_true] at h ⊢
        exact Rat.le_def.mpr h

theorem memQ_neg_iff (left right : Option ℚ) (il ir : Bool) (x : ℚ) :
    memQ (right.map fun r => -r) (left.map fun l => -l) ir il (-x) ↔
      memQ left right il ir x := by
  unfold memQ
  cases left <;> cases right <;>
    simp only [Option.map_none', Option.map_some', reduceCtorEq, false_implies,
      forall_const, true_and, and_true, Option.some.injEq, forall_eq']
  case none.some r =>
    constructor
    · intro h
      cases ir <;> simp only [if_true, if_false, Bool.false_eq_true] at h ⊢ <;>
        [exact lt_of_neg_lt_neg h; exact le_of_neg_le_neg h]
    · intro h
      cases ir <;> simp only [if_true, if_false, Bool.false_eq_true] at h ⊢ <;>
        [exact neg_lt_neg h; exact neg_le_neg h]
  case some.none l =>
    constructor
    · intro h
      cases il <;> simp only [if_true, if_false, Bool.false_eq_true] at h ⊢ <;>
        [exact lt_of_neg_lt_neg h; exact le_of_neg_le_neg h]
    · intro h
      cases il <;> simp only [if_true, if_false, Bool.false_eq_true] at h ⊢ <;>
        [exact neg_lt_neg h; exact neg_le_neg h]
  case some.some l r =>
    rw [and_comm]
    constructor
    · rintro ⟨h1, h2⟩
      constructor
      · cases il <;> simp only [if_true, if_false, Bool.false_eq_true] at h1 ⊢ <;>
          [exact lt_of_neg_lt_neg h1; exact le_of_neg_le_neg h1]
      · cases ir <;> simp only [if_true, if_false, Bool.false_eq_true] at h2 ⊢ <;>
          [exact lt_of_neg_lt_neg h2; exact le_of_neg_le_neg h2]
    · rintro ⟨h1, h2⟩
      constructor
      · cases il <;> simp only [if_true, if_false, Bool.false_eq_true] at h1 ⊢ <;>
          [exact neg_lt_neg h1; exact neg_le_neg h1]
      · cases ir <;> simp only [if_true, if_false, Bool.false_eq_true] at h2 ⊢ <;>
          [exact neg_lt_neg h2; exact neg_le_neg h2]

/-- Right-endpoint condition required by the core routine: positive, or
zero and included. -/
def RightPos (right : Option ℚ) (ir : Bool) : Prop :=
  match right with
  | none => True
  | some r => 0 < r ∨ (r = 0 ∧ ir = true)

/-- Correctness of the un-negated call: the reduced fraction built from the
core's output is in the interval and dominates no fraction of it. -/
theorem siiPos_spec (left right : Option ℚ) (il ir : Bool)
    (hl : left = none → il = false) (hr : right = none → ir = false)
    (hne : NonemptyI left right il ir) (hrp : RightPos right ir) :
    ∃ x : ℚ, Rat.divInt (siiPos left right il ir).1 (siiPos left right il ir).2 = x ∧
      memQ left right il ir x ∧
      ∀ y : ℚ, memQ left right il ir y → |x.num| ≤ |y.num| ∧ x.den ≤ y.den := by
  have hpre : PosPre (lnum left) (lden left) il (rnum right) (rden right) ir := by
    refine ⟨?_, ?_, ?_, ?_, ?_, ?_⟩
    · cases left with
      | none => exact le_refl 0
      | some l => exact Int.ofNat_nonneg l.den
    · cases right with
      | none => exact le_refl 0
      | some r => exact Int.ofNat_nonneg r.den
    · cases left with
      | none => exact fun _ => ⟨rfl, hl rfl⟩
      | some l =>
        intro h0
        exact absurd h0 (by have := l.pos; simp only [lden]; omega)
    · cases right with
      | none => exact fun _ => ⟨rfl, hr rfl⟩
      | some r =>
        intro h0
        exact absurd h0 (by have := r.pos; simp only [rden]; omega)
    · cases right with
      | none => exact Or.inl (le_refl 1)
      | some r =>
        unfold RightPos at hrp
        simp only [rnum]
        rcases hrp with h1 | ⟨h1, h2⟩
        · exact Or.inl (Rat.num_pos.mpr h1)
        · exact Or.inr ⟨Rat.num_eq_zero.mpr h1, h2⟩
    · cases left with
      | none =>
        cases right with
        | none => exact Or.inr (Or.inr ⟨rfl, rfl⟩)
        | some r =>
          left
          simp only [lnum, lden, rnum, rden]
          have := r.pos
          omega
      | some l =>
        cases right with
        | none =>
          left
          simp only [lnum, lden, rnum, rden]
          have := l.pos
          omega
        | some r =>
          unfold NonemptyI at hne
          simp only [lnum, lden, rnum, rden]
          rcases hne with h1 | ⟨h1, h2, h3⟩
          · exact Or.inl (Rat.lt_def.mp h1)
          · subst h1
            exact Or.inr (Or.inl ⟨rfl, h2, h3⟩)
  obtain ⟨n, d, heq, hd1, hn0, hgcd, hmem, hmin⟩ :=
    pos_correct (lnum left) (lden left) il (rnum right) (rden right) ir hpre
  have hsii : siiPos left right il ir = (n, d) := heq
  rw [hsii]
  obtain ⟨hnum, hden⟩ := divInt_num_den (by omega : (0:Int) < d) hgcd
  refine ⟨Rat.divInt n d, rfl, ?_, ?_⟩
  · constructor
    · rw [lower_mem_iff, hnum, hden]
      exact hmem.1
    · rw [upper_mem_iff, hnum, hden]
      exact hmem.2
  · intro y hy
    have hymem : memJ (lnum left) (lden left) il (rnum right) (rden right) ir
        y.num (y.den : Int) :=
      ⟨(lower_mem_iff left il y).mp hy.1, (upper_mem_iff right ir y).mp hy.2⟩
    have hyden : (1:Int) ≤ (y.den : Int) := by
      have := y.pos
      omega
    obtain ⟨h1, h2⟩ := hmin y.num (y.den : Int) hyden hymem
    constructor
    · rw [hnum]
      calc |n| = n := abs_of_nonneg hn0
        _ ≤ |y.num| := h1
    · have : ((Rat.divInt n d).den : Int) ≤ (y.den : Int) := by omega
      exact_mod_cast this

/-- Correctness of the whole normalize-and-search body. -/
theorem siiCore_spec (left right : Option ℚ) (il ir : Bool)
    (hl : left = none → il = false) (hr : right = none → ir = false)
    (hne : NonemptyI left right il ir) :
    memQ left right il ir (siiCore left right il ir) ∧
      ∀ y : ℚ, memQ left right il ir y →
        |(siiCore left right il ir).num| ≤ |y.num| ∧
          (siiCore left right il ir).den ≤ y.den := by
  cases right with
  | none =>
    obtain ⟨x, hx, hmem, hmin⟩ := siiPos_spec left none il ir hl hr hne trivial
    have hcore : siiCore left none il ir = x := by
      rw [← hx]
      simp only [siiCore, Bool.false_eq_true, if_false]
    rw [hcore]
    exact ⟨hmem, hmin⟩
  | some r =>
    by_cases hneg : r < 0 ∨ (r = 0 ∧ ir = false)
    · -- negation branch
      have hb : (decide (r < 0) || (decide (r = 0) && !ir)) = true := by
        rcases hneg with h | ⟨h1, h2⟩
        · simp [h]
        · simp [h1, h2]
      have hl' : (some (-r) : Option ℚ) = none → ir = false := by
        intro h0; exact absurd h0 (by simp)
      have hr' : left.map (fun l => -l) = none → il = false := by
        cases left with
        | none => exact fun _ => hl rfl
        | some l => intro h0; exact absurd h0 (by simp)
      have hne' : NonemptyI (some (-r)) (left.map fun l => -l) ir il := by
        cases left with
        | none => exact trivial
        | some l =>
          unfold NonemptyI at hne ⊢
          simp only [Option.map_some']
          rcases hne with h1 | ⟨h1, h2, h3⟩
          · exact Or.inl (neg_lt_neg h1)
          · exact Or.inr ⟨by rw [h1], h3, h2⟩
      have hrp' : RightPos (left.map fun l => -l) il := by
        cases left with
        | none => exact trivial
        | some l =>
          unfold RightPos
          simp only [Option.map_some']
          have hl0 : l < 0 := by
            unfold NonemptyI at hne
            rcases hneg with h | ⟨h1, h2⟩
            · rcases hne with h1 | ⟨h1, _, _⟩
              · exact h1.trans h
              · rw [h1]; exact h
            · rcases hne with h3 | ⟨h3, h4, h5⟩
              · rw [← h1]; exact h3
              · rw [h5] at h2; exact absurd h2 (by simp)
          exact Or.inl (neg_pos.mpr hl0)
      obtain ⟨x, hx, hmem, hmin⟩ :=
        siiPos_spec (some (-r)) (left.map fun l => -l) ir il hl' hr' hne' hrp'
      have hcore : siiCore left (some r) il ir = -x := by
        simp only [siiCore, Option.map_some', hb, if_true]
        rw [← hx, ← Rat.neg_divInt]
      have hmemneg := (memQ_neg_iff left (some r) il ir (-x))
      rw [neg_neg] at hmemneg
      simp only [Option.map_some'] at hmemneg
      rw [hcore]
      constructor
      · exact hmemneg.mp hmem
      · intro y hy
        have hyneg : memQ (some (-r)) (left.map fun l => -l) ir il (-y) := by
          have := (memQ_neg_iff left (some r) il ir y)
          simp only [Option.map_some'] at this
          exact this.mpr hy
        obtain ⟨h1, h2⟩ := hmin (-y) hyneg
        rw [Rat.num_neg_eq_neg_num, abs_neg] at h1 ⊢
        rw [Rat.den_neg_eq_den] at h2 ⊢
        exact ⟨h1, h2⟩
    · -- no negation
      have hb : (decide (r < 0) || (decide (r = 0) && !ir)) = false := by
        rcases lt_trichotomy r 0 with h | h | h
        · exact absurd (Or.inl h) hneg
        · cases hir : ir with
          | false => exact absurd (Or.inr ⟨h, hir⟩) hneg
          | true => simp [h, hir]
        · simp [h.asymm, h.ne']
      have hrp : RightPos (some r) ir := by
        unfold RightPos
        rcases lt_trichotomy r 0 with h | h | h
        · exact absurd (Or.inl h) hneg
        · cases hir : ir with
          | false => exact absurd (Or.inr ⟨h, hir⟩) hneg
          | true => exact Or.inr ⟨h, rfl⟩
        · exact Or.inl h
      obtain ⟨x, hx, hmem, hmin⟩ := siiPos_spec left (some r) il ir hl hr hne hrp
      have hcore : siiCore left (some r) il ir = x := by
        rw [← hx]
        simp only [siiCore, hb, Bool.false_eq_true, if_false]
      rw [hcore]
      exact ⟨hmem, hmin⟩

/-- Full specification of `_simplest_in_interval` on valid nonempty
intervals: it succeeds, the result is in the interval, and the result's
numerator (in absolute value) and denominator are dominated by those of
every rational in the interval. -/
theorem simplestInInterval_spec (left right : Option ℚ) (il ir : Bool)
    (hl : left = none → il = false) (hr : right = none → ir = false)
    (hne : NonemptyI left right il ir) :
    simplestInInterval left right il ir = .ok (siiCore left right il ir) ∧
      memQ left right il ir (siiCore left right il ir) ∧
      ∀ y : ℚ, memQ left right il ir y →
        |(siiCore left right il ir).num| ≤ |y.num| ∧
          (siiCore left right il ir).den ≤ y.den := by
  have hg1 : ¬ (left.isNone = true ∧ il = true) := by
    cases left with
    | none => simp [hl rfl]
    | some l => simp
  have hg2 : ¬ (right.isNone = true ∧ ir = true) := by
    cases right with
    | none => simp [hr rfl]
    | some r => simp
  have hg3 : nonemptyB left right il ir = true := by
    cases left with
    | none => cases right <;> rfl
    | some l =>
      cases right with
      | none => rfl
      | some r =>
        unfold NonemptyI at hne
        unfold nonemptyB
        rcases hne with h1 | ⟨h1, h2, h3⟩
        · simp [h1]
        · simp [h1, h2, h3]
  refine ⟨?_, siiCore_spec left right il ir hl hr hne⟩
  unfold simplestInInterval
  rw [if_neg hg1, if_neg hg2, hg3]
  simp

/-! ### Uniqueness of the simplest fraction -/

/-- If the interval contains a negative and a positive rational, it
contains zero. -/
theorem memQ_zero_of {left right : Option ℚ} {il ir : Bool} {w z : ℚ}
    (hw : memQ left right il ir w) (hz : memQ left right il ir z)
    (hwneg : w < 0) (hzpos : 0 < z) : memQ left right il ir 0 := by
  constructor
  · intro l hleq
    have h := hw.1 l hleq
    have hl0 : l < 0 := by
      cases il with
      | true => simp only [if_true] at h; exact lt_of_le_of_lt h hwneg
      | false => simp only [Bool.false_eq_true, if_false] at h; exact h.trans hwneg
    cases il with
    | true => simpa using hl0.le
    | false => simpa using hl0
  · intro r hreq
    have h := hz.2 r hreq
    have hr0 : 0 < r := by
      cases ir with
      | true => simp only [if_true] at h; exact lt_of_lt_of_le hzpos h
      | false => simp only [Bool.false_eq_true, if_false] at h; exact hzpos.trans h
    cases ir with
    | true => simpa using hr0.le
    | false => simpa using hr0

/-- Any fraction of the interval at least as simple as the result equals
the result. -/
theorem siiCore_eq_of_simpler (left right : Option ℚ) (il ir : Bool)
    (hl : left = none → il = false) (hr : right = none → ir = false)
    (hne : NonemptyI left right il ir) (y : ℚ) (hy : memQ left right il ir y)
    (h1 : |y.num| ≤ |(siiCore left right il ir).num|)
    (h2 : y.den ≤ (siiCore left right il ir).den) :
    y = siiCore left right il ir := by
  obtain ⟨_, hmem, hmin⟩ := simplestInInterval_spec left right il ir hl hr hne
  obtain ⟨h3, h4⟩ := hmin y hy
  have hnum : |y.num| = |(siiCore left right il ir).num| := le_antisymm h1 h3
  have hden : y.den = (siiCore left right il ir).den := le_antisymm h2 h4
  set x := siiCore left right il ir with hxdef
  rcases abs_eq_abs.mp hnum with h5 | h5
  · exact Rat.ext h5 hden
  · by_cases hx0 : x.num = 0
    · exact Rat.ext (by omega) hden
    · have hyx : y = -x := by
        apply Rat.ext
        · rw [Rat.num_neg_eq_neg_num, h5]
        · rw [Rat.den_neg_eq_den, hden]
      have hmemnx : memQ left right il ir (-x) := hyx ▸ hy
      have hxne : x ≠ 0 := fun h => hx0 (by rw [h]; rfl)
      have h0mem : memQ left right il ir 0 := by
        rcases lt_trichotomy x 0 with hx | hx | hx
        · exact memQ_zero_of hmem hmemnx hx (by linarith)
        · exact absurd hx hxne
        · exact memQ_zero_of hmemnx hmem (by linarith) hx
      obtain ⟨h6, _⟩ := hmin 0 h0mem
      have : (0:ℚ).num = 0 := rfl
      rw [this] at h6
      simp only [abs_zero] at h6
      exact absurd (abs_eq_zero.mp (le_antisymm h6 (abs_nonneg _))) hx0

/-- The emptiness condition exactly as the claim states it: `left > right`
in the extended order, or `left == right` with not both endpoints
included. -/
def EmptyI (left right : Option ℚ) (includeLeft includeRight : Bool) : Prop :=
  match left, right with
  | none, _ => False
  | _, none => False
  | some l, some r => r < l ∨ (l = r ∧ ¬ (includeLeft = true ∧ includeRight = true))

theorem EmptyI_iff_not_NonemptyI (left right : Option ℚ) (il ir : Bool) :
    EmptyI left right il ir ↔ ¬ NonemptyI left right il ir := by
  cases left with
  | none => simp [EmptyI, NonemptyI]
  | some l =>
    cases right with
    | none => simp [EmptyI, NonemptyI]
    | some r =>
      unfold EmptyI NonemptyI
      constructor
      · rintro (h | ⟨h1, h2⟩) (h3 | ⟨h4, h5, h6⟩)
        · exact absurd h3 (asymm h)
        · rw [h4] at h; exact absurd h (lt_irrefl r)
        · rw [h1] at h3; exact absurd h3 (lt_irrefl r)
        · exact h2 ⟨h5, h6⟩
      · intro h
        rcases lt_trichotomy l r with h1 | h1 | h1
        · exact absurd (Or.inl h1) h
        · refine Or.inr ⟨h1, fun ⟨h2, h3⟩ => h (Or.inr ⟨h1, h2, h3⟩)⟩
        · exact Or.inl h1

/-! ### Claim theorems: membership, uniqueness, error behaviour -/

/-- C1: for every valid nonempty interval, the fraction returned by
`_simplest_in_interval` lies within the interval, strictly above/below an
excluded endpoint and weakly above/below an included one. -/
theorem C1_result_lies_in_interval (left right : Option ℚ) (il ir : Bool)
    (hl : left = none → il = false) (hr : right = none → ir = false)
    (hne : NonemptyI left right il ir) :
    ∃ x : ℚ, simplestInInterval left right il ir = .ok x ∧
      memQ left right il ir x := by
  obtain ⟨h1, h2, _⟩ := simplestInInterval_spec left right il ir hl hr hne
  exact ⟨_, h1, h2⟩

theorem C1_witness :
    NonemptyI (some (7/10 : ℚ)) (some (5/7 : ℚ)) false false ∧
      ∃ x : ℚ, simplestInInterval (some (7/10 : ℚ)) (some (5/7 : ℚ)) false false = .ok x ∧
        memQ (some (7/10 : ℚ)) (some (5/7 : ℚ)) false false x :=
  ⟨Or.inl (by norm_num),
    C1_result_lies_in_interval (some (7/10)) (some (5/7)) false false
      (fun h => absurd h (by simp)) (fun h => absurd h (by simp))
      (Or.inl (by norm_num))⟩

/-- C2: for every valid nonempty interval, the returned fraction is the
unique simplest one: any fraction of the interval whose numerator (in
absolute value) and denominator do not exceed the result's equals the
result. -/
theorem C2_result_is_unique_simplest (left right : Option ℚ) (il ir : Bool)
    (hl : left = none → il = false) (hr : right = none → ir = false)
    (hne : NonemptyI left right il ir) :
    ∃ x : ℚ, simplestInInterval left right il ir = .ok x ∧
      ∀ y : ℚ, memQ left right il ir y →
        |y.num| ≤ |x.num| → y.den ≤ x.den → y = x := by
  obtain ⟨h1, _, _⟩ := simplestInInterval_spec left right il ir hl hr hne
  exact ⟨_, h1, fun y hy hy1 hy2 => siiCore_eq_of_simpler left right il ir hl hr hne y hy hy1 hy2⟩

theorem C2_witness :
    NonemptyI (some (3:ℚ)) (some (4:ℚ)) false false ∧
      ∃ x : ℚ, simplestInInterval (some (3:ℚ)) (some (4:ℚ)) false false = .ok x ∧
        ∀ y : ℚ, memQ (some (3:ℚ)) (some (4:ℚ)) false false y →
          |y.num| ≤ |x.num| → y.den ≤ x.den → y = x :=
  ⟨Or.inl (by norm_num),
    C2_result_is_unique_simplest (some 3) (some 4) false false
      (fun h => absurd h (by simp)) (fun h => absurd h (by simp))
      (Or.inl (by norm_num))⟩

/-- C4: with valid inclusion flags, `_simplest_in_interval` reports the
`empty interval` error exactly when the described interval is empty, and
returns a value on every nonempty interval. -/
theorem C4_empty_interval_error_iff (left right : Option ℚ) (il ir : Bool)
    (hl : left = none → il = false) (hr : right = none → ir = false) :
    (simplestInInterval left right il ir = .error "empty interval" ↔
      EmptyI left right il ir) ∧
    (¬ EmptyI left right il ir →
      ∃ x : ℚ, simplestInInterval left right il ir = .ok x) := by
  have hiff := EmptyI_iff_not_NonemptyI left right il ir
  constructor
  · constructor
    · intro herr
      rw [hiff]
      intro hne
      obtain ⟨h1, _, _⟩ := simplestInInterval_spec left right il ir hl hr hne
      rw [h1] at herr
      exact Except.noConfusion herr
    · intro hemp
      have hne' : ¬ NonemptyI left right il ir := hiff.mp hemp
      have hg1 : ¬ (left.isNone = true ∧ il = true) := by
        cases left with
        | none => simp [hl rfl]
        | some l => simp
      have hg2 : ¬ (right.isNone = true ∧ ir = true) := by
        cases right with
        | none => simp [hr rfl]
        | some r => simp
      have hg3 : nonemptyB left right il ir = false := by
        cases left with
        | none => exact absurd (by simp [NonemptyI]) hne'
        | some l =>
          cases right with
          | none => exact absurd (by simp [NonemptyI]) hne'
          | some r =>
            unfold NonemptyI at hne'
            have ha : ¬ l < r := fun h => hne' (Or.inl h)
            unfold nonemptyB
            cases il with
            | false => cases ir <;> simp [ha]
            | true =>
              cases ir with
              | false => simp [ha]
              | true =>
                have hlr : l ≠ r := fun h => hne' (Or.inr ⟨h, rfl, rfl⟩)
                simp [ha, hlr]
      unfold simplestInInterval
      rw [if_neg hg1, if_neg hg2, hg3]
      simp
  · intro hnemp
    have hne : NonemptyI left right il ir := by
      by_contra h
      exact hnemp (hiff.mpr h)
    obtain ⟨h1, _, _⟩ := simplestInInterval_spec left right il ir hl hr hne
    exact ⟨_, h1⟩

theorem C4_witness :
    (simplestInInterval (some (1/2 : ℚ)) (some (1/2 : ℚ)) false false =
        .error "empty interval" ↔ EmptyI (some (1/2 : ℚ)) (some (1/2 : ℚ)) false false) ∧
      (¬ EmptyI (some (1/2 : ℚ)) (some (1/2 : ℚ)) false false →
        ∃ x : ℚ, simplestInInterval (some (1/2 : ℚ)) (some (1/2 : ℚ)) false false = .ok x) :=
  C4_empty_interval_error_iff (some (1/2)) (some (1/2)) false false
    (fun h => absurd h (by simp)) (fun h => absurd h (by simp))

/-! ### The unimodular invariant and termination -/

/-- `gcd (a + b) (c + d) = 1` whenever `|a*d - b*c| = 1`. -/
theorem gcd_sum_of_det {a b c d : Int} (h : (a * d - b * c).natAbs = 1) :
    Int.gcd (a + b) (c + d) = 1 := by
  rw [Int.gcd_eq_one_iff_coprime]
  rcases Int.natAbs_eq_iff.mp h with h1 | h1
  · exact ⟨d, -b, by push_cast at h1 ⊢; linear_combination h1⟩
  · exact ⟨-d, b, by push_cast at h1 ⊢; linear_combination -h1⟩

/-- The determinant's absolute value is preserved by the loop's matrix
update, so whatever pair the loop returns has coprime entries. -/
theorem posLoop_gcd (fuel : Nat) :
    ∀ (s t u v : Int) (stc uvc : Bool) (a b c d : Int),
      (a * d - b * c).natAbs = 1 →
      Int.gcd (posLoop fuel s t u v stc uvc a b c d).1
        (posLoop fuel s t u v stc uvc a b c d).2 = 1 := by
  induction fuel with
  | zero => intro s t u v stc uvc a b c d h; exact gcd_sum_of_det h
  | succ f ih =>
    intro s t u v stc uvc a b c d h
    by_cases hc : t ≤ s - b2i stc
    · rw [posLoop_succ_of_cond stc hc f u v uvc a b c d]
      apply ih
      have he : (b + (s - b2i stc).fdiv t * a) * c - a * (d + (s - b2i stc).fdiv t * c)
          = -(a * d - b * c) := by ring
      rw [he, Int.natAbs_neg]
      exact h
    · rw [posLoop_succ_of_done stc hc f u v uvc a b c d]
      exact gcd_sum_of_det h

/-- C5: the loop's matrix update preserves `|a*d - b*c| = 1`; the matrix
starts with determinant `1`, and consequently the pair returned by
`_simplest_in_interval_pos` is already in lowest terms, with no final
reduction step. -/
theorem C5_unimodular_invariant_and_lowest_terms :
    (∀ a b c d q : Int, (a * d - b * c).natAbs = 1 →
      ((b + q * a) * c - a * (d + q * c)).natAbs = 1) ∧
    ((1 * 1 - (-1) * 0 : Int).natAbs = 1) ∧
    (∀ (ln ld : Int) (lc : Bool) (rn rd : Int) (rc : Bool),
      Int.gcd (simplest_in_interval_pos ln ld lc rn rd rc).1
        (simplest_in_interval_pos ln ld lc rn rd rc).2 = 1) := by
  refine ⟨?_, by decide, ?_⟩
  · intro a b c d q h
    have he : (b + q * a) * c - a * (d + q * c) = -(a * d - b * c) := by ring
    rw [he, Int.natAbs_neg]
    exact h
  · intro ln ld lc rn rd rc
    exact posLoop_gcd _ _ _ _ _ _ _ _ _ _ _ (by decide)

theorem C5_witness :
    ((2 * 1 - 1 * 1 : Int).natAbs = 1 ∧
      ((1 + 3 * 2) * 1 - 2 * (1 + 3 * 1) : Int).natAbs = 1) :=
  ⟨by decide, C5_unimodular_invariant_and_lowest_terms.1 2 1 1 1 3 (by decide)⟩

/-- C6 (corrected): each iteration computes `q = (s - adj) // t` where the
adjustment `adj` is `1` if the current left endpoint IS included (the code
subtracts the `st_closed` flag, true on inclusion) and `0` if it is
excluded — the opposite of the claim's stated convention.  The quotient is
exactly the floor (bracketed by `q*t ≤ s - adj < (q+1)*t`), the endpoint
pairs and the matrix are updated by
`(a,b,c,d) ← (b + q*a, a, d + q*c, c)` with the endpoint roles swapped,
and the loop stops exactly when `s - adj < t`, under the same convention. -/
theorem C6_loop_body :
    (b2i true = 1 ∧ b2i false = 0) ∧
    (∀ (s t : Int) (stc : Bool), 1 ≤ t → t ≤ s - b2i stc →
      (s - b2i stc).fdiv t * t ≤ s - b2i stc ∧
        s - b2i stc < ((s - b2i stc).fdiv t + 1) * t) ∧
    (∀ (fuel : Nat) (s t u v : Int) (stc uvc : Bool) (a b c d : Int),
      t ≤ s - b2i stc →
      posLoop (fuel + 1) s t u v stc uvc a b c d =
        posLoop fuel v (u - (s - b2i stc).fdiv t * v) t (s - (s - b2i stc).fdiv t * t)
          uvc stc (b + (s - b2i stc).fdiv t * a) a (d + (s - b2i stc).fdiv t * c) c) ∧
    (∀ (fuel : Nat) (s t u v : Int) (stc uvc : Bool) (a b c d : Int),
      s - b2i stc < t →
      posLoop (fuel + 1) s t u v stc uvc a b c d = (a + b, c + d)) := by
  refine ⟨⟨rfl, rfl⟩, ?_, ?_, ?_⟩
  · intro s t stc ht h
    exact fdiv_bracket (s - b2i stc) (by omega)
  · intro fuel s t u v stc uvc a b c d h
    exact posLoop_succ_of_cond stc h fuel u v uvc a b c d
  · intro fuel s t u v stc uvc a b c d h
    exact posLoop_succ_of_done stc (by omega) fuel u v uvc a b c d

theorem C6_witness :
    (b2i true = 1 ∧ b2i false = 0) ∧
    ((7 - b2i false).fdiv 2 * 2 ≤ 7 - b2i false ∧
      7 - b2i false < ((7 - b2i false).fdiv 2 + 1) * 2) ∧
    (posLoop 4 7 2 9 2 false false 1 (-1) 0 1 =
      posLoop 3 2 (9 - (7 - b2i false).fdiv 2 * 2) 2 (7 - (7 - b2i false).fdiv 2 * 2)
        false false (-1 + (7 - b2i false).fdiv 2 * 1) 1 (1 + (7 - b2i false).fdiv 2 * 0) 0) ∧
    (posLoop 4 1 2 9 2 false false 1 (-1) 0 1 = (1 + -1, 0 + 1)) :=
  ⟨C6_loop_body.1,
    C6_loop_body.2.1 7 2 false (by decide) (by decide),
    C6_loop_body.2.2.1 3 7 2 9 2 false false 1 (-1) 0 1 (by decide),
    C6_loop_body.2.2.2 3 1 2 9 2 false false 1 (-1) 0 1 (by decide)⟩

/-- Refutation of the claim's stated adjustment convention (`adj = 0` when
the left endpoint is included, `1` when excluded): on the interval `[3, 4]`
with both endpoints included, `_simplest_in_interval_pos` reaches the state
`s = 4, t = 1, st_closed = true` and its first quotient is
`(4 - 1) // 1 = 3` — the matrix step it takes — while the claim's formula
would give `(4 - 0) // 1 = 4`. -/
theorem C6_counterexample :
    ((4:Int) - b2i true).fdiv 1 = 3 ∧
    ((4:Int) - 0).fdiv 1 = 4 ∧
    ((4:Int) - b2i true).fdiv 1 ≠ ((4:Int) - 0).fdiv 1 ∧
    posLoop 12 4 1 5 1 true true 1 (-1) 0 1
      = posLoop 11 1 (5 - 3 * 1) 1 (4 - 3 * 1) true true ((-1) + 3 * 1) 1 (1 + 3 * 0) 0 ∧
    simplest_in_interval_pos 3 1 true 4 1 true = (3, 1) := by
  refine ⟨by decide, by decide, by decide, by decide, by decide⟩

/-- From any state that either satisfies the invariant or already fails
the loop condition, one extra unit of fuel beyond `posFuel` changes
nothing. -/
theorem posLoop_stable (fuel : Nat) :
    ∀ (s t u v : Int) (stc uvc : Bool) (a b c d : Int),
      (JInv s t u v stc uvc ∨ ¬ t ≤ s - b2i stc) → posFuel s t u v ≤ fuel →
      posLoop (fuel + 1) s t u v stc uvc a b c d =
        posLoop fuel s t u v stc uvc a b c d := by
  induction fuel with
  | zero => intro s t u v stc uvc a b c d _ hfuel; simp [posFuel] at hfuel
  | succ f ih =>
    intro s t u v stc uvc a b c d hgood hfuel
    by_cases hc : t ≤ s - b2i stc
    · rcases hgood with hinv | hdone
      · have hstep := JInv_step hinv hc
        have hdec := posFuel_dec hinv hc
        rw [posLoop_succ_of_cond stc hc (f + 1), posLoop_succ_of_cond stc hc f]
        exact ih _ _ _ _ _ _ _ _ _ _ (Or.inl hstep) (by omega)
      · exact absurd hc hdone
    · rw [posLoop_succ_of_done stc hc (f + 1), posLoop_succ_of_done stc hc f]

/-- On valid inputs the initial state is either an invariant state or a
state in which the loop is never entered. -/
theorem init_good (ln ld : Int) (lc : Bool) (rn rd : Int) (rc : Bool)
    (hpre : PosPre ln ld lc rn rd rc) :
    JInv (ln + ld) ld (rn + rd) rd lc rc ∨ ¬ ld ≤ (ln + ld) - b2i lc := by
  obtain ⟨hld, hrd, hldz, hrdz, hrpos, hne⟩ := hpre
  have hadj : 0 ≤ b2i lc ∧ b2i lc ≤ 1 := by unfold b2i; split <;> omega
  by_cases hA : ln < b2i lc
  · right; omega
  · left
    have hln : 0 ≤ ln := by omega
    have hld1 : 1 ≤ ld := by
      rcases Int.lt_or_le 0 ld with h1 | h1
      · omega
      · have h0 : ld = 0 := by omega
        obtain ⟨h2, _⟩ := hldz h0
        omega
    refine ⟨hld1, hrd, Or.inl (by omega), ?_, ?_, ?_⟩
    · intro h0
      obtain ⟨h1, h2⟩ := hrdz h0
      exact ⟨by omega, h2⟩
    · rcases hne with hne | hne | hne
      · left; nlinarith
      · right
        exact ⟨by nlinarith [hne.1], hne.2.1, hne.2.2⟩
      · omega
    · rcases hrpos with h1 | ⟨h1, h2⟩
      · left; omega
      · exact Or.inr ⟨by omega, h2⟩

/-- C7: on every iteration the sum of the magnitudes of the four endpoint
numerators and denominators strictly decreases (hence in particular it is
non-increasing, and strictly decreases on all but possibly the first
iteration), and the loop terminates on every valid input: any amount of
extra fuel leaves the result of `_simplest_in_interval_pos` unchanged. -/
theorem C7_measure_decreases_and_terminates :
    (∀ (s t u v : Int) (stc uvc : Bool), JInv s t u v stc uvc → t ≤ s - b2i stc →
      v.natAbs + (u - (s - b2i stc).fdiv t * v).natAbs + t.natAbs
          + (s - (s - b2i stc).fdiv t * t).natAbs
        < s.natAbs + t.natAbs + u.natAbs + v.natAbs) ∧
    (∀ (ln ld : Int) (lc : Bool) (rn rd : Int) (rc : Bool), PosPre ln ld lc rn rd rc →
      ∀ extra : Nat,
        posLoop (posFuel (ln + ld) ld (rn + rd) rd + extra)
            (ln + ld) ld (rn + rd) rd lc rc 1 (-1) 0 1
          = simplest_in_interval_pos ln ld lc rn rd rc) := by
  constructor
  · intro s t u v stc uvc hinv hc
    have := posFuel_dec hinv hc
    unfold posFuel at this
    omega
  · intro ln ld lc rn rd rc hpre extra
    have hgood := init_good ln ld lc rn rd rc hpre
    induction extra with
    | zero => rfl
    | succ e ihe =>
      have : posFuel (ln + ld) ld (rn + rd) rd + (e + 1)
          = (posFuel (ln + ld) ld (rn + rd) rd + e) + 1 := by omega
      rw [this, posLoop_stable _ _ _ _ _ _ _ _ _ _ _ hgood (by omega)]
      exact ihe

theorem C7_witness :
    (JInv 7 2 9 2 false false ∧ (2:Int) ≤ 7 - b2i false) ∧
    ((2:Int).natAbs + (9 - (7 - b2i false).fdiv 2 * 2).natAbs + (2:Int).natAbs
        + (7 - (7 - b2i false).fdiv 2 * 2).natAbs
      < (7:Int).natAbs + (2:Int).natAbs + (9:Int).natAbs + (2:Int).natAbs) ∧
    (PosPre 1 2 false 4 1 false ∧
      posLoop (posFuel (1 + 2) 2 (4 + 1) 1 + 5) (1 + 2) 2 (4 + 1) 1 false false 1 (-1) 0 1
        = simplest_in_interval_pos 1 2 false 4 1 false) := by
  have hinv : JInv 7 2 9 2 false false := by
    refine ⟨by decide, by decide, Or.inl (by decide), by decide, Or.inl (by decide),
      Or.inl (by decide)⟩
  have hpre : PosPre 1 2 false 4 1 false := by
    refine ⟨by decide, by decide, by decide, by decide, Or.inl (by decide),
      Or.inl (by decide)⟩
  exact ⟨⟨hinv, by decide⟩,
    C7_measure_decreases_and_terminates.1 7 2 9 2 false false hinv (by decide),
    hpre, C7_measure_decreases_and_terminates.2 1 2 false 4 1 false hpre 5⟩

/-! ### IEEE-754 binary64 at the bit level

`struct.unpack("<Q", struct.pack("<d", x))[0]` identifies a double with its
64-bit pattern; the embedding works with the pattern directly and takes its
exact rational value through `decodeF`. -/

/-- Bit pattern of `+inf` (exponent field all ones, zero significand). -/
def pinfPattern : Nat := 2047 * 2 ^ 52

/-- Bit pattern of the largest finite double. -/
def maxFinitePattern : Nat := pinfPattern - 1

/-- The pattern encodes a finite double. -/
def isFiniteP (p : Nat) : Prop := p < 2 ^ 64 ∧ (p / 2 ^ 52) % 2 ^ 11 ≠ 2047

instance (p : Nat) : Decidable (isFiniteP p) := by unfold isFiniteP; infer_instance

/-- Exact rational value of the finite double encoded by `p`. -/
def decodeF (p : Nat) : ℚ :=
  let s : Nat := p / 2 ^ 63
  let e : Nat := (p / 2 ^ 52) % 2 ^ 11
  let m : Nat := p % 2 ^ 52
  let mag : ℚ :=
    if e = 0 then (m : ℚ) * (2 : ℚ) ^ (-(1074 : Int))
    else ((2 ^ 52 + m : ℕ) : ℚ) * (2 : ℚ) ^ ((e : Int) - 1075)
  if s = 1 then -mag else mag

/-- `_interval_rounding_to` for a nonnegative double (pattern without the
sign bit): the zero branch and the main branch of the Python code. -/
def intervalRoundingToPos (p : Nat) : ℚ × ℚ × Bool :=
  if decodeF p = 0 then
    let xplus := decodeF 1
    let right := (decodeF p + xplus) / 2
    (-right, right, true)
  else
    let xminus := decodeF (p - 1)
    let left := (decodeF p + xminus) / 2
    let right :=
      if p + 1 = pinfPattern then 2 * decodeF p - left
      else (decodeF p + decodeF (p + 1)) / 2
    (left, right, decide (p % 2 = 0))

/-- Embedding of `_interval_rounding_to(x)` over the bit pattern of the
finite double `x`; the `x < 0` branch recurses on `-x` (sign bit cleared)
and reflects the bounds. -/
def intervalRoundingTo (p : Nat) : ℚ × ℚ × Bool :=
  if decodeF p < 0 then
    ((intervalRoundingToPos (p - 2 ^ 63)).2.1.neg,
      (intervalRoundingToPos (p - 2 ^ 63)).1.neg,
      (intervalRoundingToPos (p - 2 ^ 63)).2.2)
  else intervalRoundingToPos p

theorem scaled_lt {A B : ℕ} (z : Int) (h : A < B) :
    (A : ℚ) * (2 : ℚ) ^ z < (B : ℚ) * (2 : ℚ) ^ z := by
  have hz : (0:ℚ) < (2 : ℚ) ^ z := zpow_pos (by norm_num) z
  have hAB : (A : ℚ) < (B : ℚ) := by exact_mod_cast h
  exact mul_lt_mul_of_pos_right hAB hz

/-- Adjacent nonnegative finite bit patterns decode to strictly increasing
values. -/
theorem decodeF_lt_succ (p : Nat) (hp : p + 1 ≤ maxFinitePattern) :
    decodeF p < decodeF (p + 1) := by
  have h52 : (2:ℕ) ^ 52 = 4503599627370496 := by norm_num
  have h63 : (2:ℕ) ^ 63 = 9223372036854775808 := by norm_num
  have h11 : (2:ℕ) ^ 11 = 2048 := by norm_num
  have hmax : maxFinitePattern = 9218868437227405311 := by
    unfold maxFinitePattern pinfPattern
    norm_num
  have hbound : p + 1 ≤ 9218868437227405311 := by omega
  have hs : p / 2 ^ 63 = 0 := by rw [h63]; omega
  have hs' : (p + 1) / 2 ^ 63 = 0 := by rw [h63]; omega
  have hE : p / 2 ^ 52 < 2047 := by rw [h52]; omega
  have hE' : (p + 1) / 2 ^ 52 < 2048 := by rw [h52]; omega
  have he : (p / 2 ^ 52) % 2 ^ 11 = p / 2 ^ 52 := by rw [h11]; omega
  have he' : ((p + 1) / 2 ^ 52) % 2 ^ 11 = (p + 1) / 2 ^ 52 := by rw [h11]; omega
  unfold decodeF
  rw [hs, hs', he, he']
  simp only [if_neg (by omega : ¬ (0:ℕ) = 1)]
  by_cases hr : p % 2 ^ 52 < 2 ^ 52 - 1
  · -- same exponent bin: mantissa increases by one
    have hdiv : (p + 1) / 2 ^ 52 = p / 2 ^ 52 := by rw [h52] at hr ⊢; omega
    have hmod : (p + 1) % 2 ^ 52 = p % 2 ^ 52 + 1 := by rw [h52] at hr ⊢; omega
    rw [hdiv, hmod]
    by_cases hE0 : p / 2 ^ 52 = 0
    · rw [if_pos hE0, if_pos hE0]
      exact scaled_lt _ (by omega)
    · rw [if_neg hE0, if_neg hE0]
      exact scaled_lt _ (by omega)
  · -- exponent boundary: mantissa wraps, exponent increments
    have hrm : p % 2 ^ 52 = 2 ^ 52 - 1 := by
      have := Nat.mod_lt p (show 0 < 2 ^ 52 by positivity)
      omega
    have hdiv : (p + 1) / 2 ^ 52 = p / 2 ^ 52 + 1 := by rw [h52] at hrm ⊢; omega
    have hmod : (p + 1) % 2 ^ 52 = 0 := by rw [h52] at hrm ⊢; omega
    rw [hdiv, hmod, hrm]
    rw [if_neg (by omega : ¬ p / 2 ^ 52 + 1 = 0)]
    by_cases hE0 : p / 2 ^ 52 = 0
    · rw [if_pos hE0, hE0]
      have hz : ((0 + 1 : ℕ) : Int) - 1075 = -(1074 : Int) := by norm_num
      rw [hz]
      have hA : (2:ℕ) ^ 52 - 1 < 2 ^ 52 + 0 := by rw [h52]; omega
      exact scaled_lt _ hA
    · rw [if_neg hE0]
      set E := p / 2 ^ 52 with hEdef
      have hze : ((E + 1 : ℕ) : Int) - 1075 = ((E : ℕ) : Int) - 1075 + 1 := by
        push_cast
        ring
      rw [hze, zpow_add_one₀ (by norm_num : (2:ℚ) ≠ 0)]
      have hrhs : ((2 ^ 52 + 0 : ℕ) : ℚ) * ((2 : ℚ) ^ (((E : ℕ) : Int) - 1075) * 2)
          = ((2 ^ 53 : ℕ) : ℚ) * (2 : ℚ) ^ (((E : ℕ) : Int) - 1075) := by
        push_cast
        ring
      rw [hrhs]
      exact scaled_lt _ (by rw [h52]; norm_num)

/-- Positive patterns decode to positive values. -/
theorem decodeF_pos (p : Nat) (hp1 : 1 ≤ p) (hp2 : p ≤ maxFinitePattern) :
    0 < decodeF p := by
  have h0 : decodeF 0 = 0 := by
    unfold decodeF
    norm_num
  calc (0:ℚ) = decodeF 0 := h0.symm
    _ < decodeF p := by
      clear h0
      induction p with
      | zero => omega
      | succ n ihn =>
        rcases Nat.eq_or_lt_of_le hp1 with h1 | h1
        · rw [← h1] at hp2 ⊢
          exact decodeF_lt_succ 0 hp2
        · have hn1 : 1 ≤ n := by omega
          have hn2 : n ≤ maxFinitePattern := by omega
          exact (ihn hn1 hn2).trans (decodeF_lt_succ n hp2)

/-- C8: for positive finite doubles (patterns `1 ≤ p ≤ maxFinitePattern`),
`_interval_rounding_to` returns exactly the midpoints with the adjacent
patterns `p - 1` and `p + 1` — which decode to strictly smaller/larger
values — the reflection `2x - left` when `x` is the largest finite double,
and the closed flag iff the pattern is even. -/
theorem C8_rounding_interval_formulas (p : Nat) (hp1 : 1 ≤ p) (hp2 : p ≤ maxFinitePattern) :
    0 < decodeF p ∧
    intervalRoundingTo p =
      ((decodeF p + decodeF (p - 1)) / 2,
        (if p = maxFinitePattern then
          2 * decodeF p - (decodeF p + decodeF (p - 1)) / 2
        else (decodeF p + decodeF (p + 1)) / 2),
        decide (p % 2 = 0)) ∧
    decodeF (p - 1) < decodeF p ∧
    (p ≠ maxFinitePattern → decodeF p < decodeF (p + 1)) := by
  have hpos : 0 < decodeF p := decodeF_pos p hp1 hp2
  have hmono1 : decodeF (p - 1) < decodeF p := by
    have := decodeF_lt_succ (p - 1) (by omega)
    rwa [Nat.sub_add_cancel hp1] at this
  have hpm : pinfPattern = maxFinitePattern + 1 := by
    unfold maxFinitePattern pinfPattern
    norm_num
  refine ⟨hpos, ?_, hmono1, ?_⟩
  · unfold intervalRoundingTo
    rw [if_neg (by linarith : ¬ decodeF p < 0)]
    unfold intervalRoundingToPos
    rw [if_neg hpos.ne']
    dsimp only
    by_cases hmf : p = maxFinitePattern
    · rw [if_pos (by omega : p + 1 = pinfPattern), if_pos hmf]
    · rw [if_neg (by omega : ¬ p + 1 = pinfPattern), if_neg hmf]
  · intro hmf
    exact decodeF_lt_succ p (by omega)

theorem C8_witness :
    (1 ≤ 4607182418800017408 ∧ 4607182418800017408 ≤ maxFinitePattern) ∧
    (0 < decodeF 4607182418800017408 ∧
      intervalRoundingTo 4607182418800017408 =
        ((decodeF 4607182418800017408 + decodeF (4607182418800017408 - 1)) / 2,
          (if 4607182418800017408 = maxFinitePattern then
            2 * decodeF 4607182418800017408 -
              (decodeF 4607182418800017408 + decodeF (4607182418800017408 - 1)) / 2
          else (decodeF 4607182418800017408 + decodeF (4607182418800017408 + 1)) / 2),
          decide (4607182418800017408 % 2 = 0)) ∧
      decodeF (4607182418800017408 - 1) < decodeF 4607182418800017408 ∧
      (4607182418800017408 ≠ maxFinitePattern →
        decodeF 4607182418800017408 < decodeF (4607182418800017408 + 1))) :=
  ⟨⟨by omega, by unfold maxFinitePattern pinfPattern; norm_num⟩,
    C8_rounding_interval_formulas 4607182418800017408 (by omega)
      (by unfold maxFinitePattern pinfPattern; norm_num)⟩

/-! ### The generator-based implementation of `__init__.py`

`_esb_path` is a Python generator producing a finite sequence of
coefficients (with `math.inf` possible as last element, modelled by
`none`); `_common_prefix` zips two such sequences; `_from_esb_path` folds
the matrix updates.  The generator loop is embedded with fuel, proved
sufficient below. -/

/-- Extended-real endpoints accepted by `simplest_in_interval` in
`__init__.py` (a fraction, `math.inf` or `-math.inf`). -/
inductive XR where
  | ninf : XR
  | rat : ℚ → XR
  | pinf : XR
deriving DecidableEq

/-- `_to_integer_ratio`: `(1, 0)` for `inf`, `(-1, 0)` for `-inf`,
`x.as_integer_ratio()` otherwise. -/
def XR.toRatio : XR → Int × Int
  | .ninf => (-1, 0)
  | .pinf => (1, 0)
  | .rat q => (q.num, (q.den : Int))

/-- Strict order on extended reals (used by the tuple comparison in
`simplest_in_interval`). -/
def XR.ltB : XR → XR → Bool
  | .ninf, .ninf => false
  | .ninf, _ => true
  | .rat _, .ninf => false
  | .rat a, .rat b => decide (a < b)
  | .rat _, .pinf => true
  | .pinf, _ => false

/-- Python's lexicographic `(left, left_side) > (right, right_side)`. -/
def lexGt (x : XR) (xs : Int) (y : XR) (ys : Int) : Bool :=
  XR.ltB y x || (decide (x = y) && decide (ys < xs))

/-- The `while` loop of `_esb_path`, with fuel.  Faithful body:
`if not d: yield inf; return`; `q, r = divmod(n - (side <= 0), d)`;
`yield q`; `n, d, side = d, r + (side <= 0), -side`. -/
def esbLoop : Nat → Int → Int → Int → List (Option Int)
  | 0, _, _, _ => []
  | f + 1, n, d, side =>
    if d < n ∨ side ≠ 0 then
      if d = 0 then [none]
      else
        let adj := b2i (decide (side ≤ 0))
        let q := (n - adj).fdiv d
        let r := (n - adj) - q * d
        some q :: esbLoop f d (r + adj) (-side)
    else []

/-- `_esb_path(x, side)` after `_to_integer_ratio`: the initial
`(n, side) < (0, 0)` normalization (which yields `0`), then `n += d` and
the main loop. -/
def esbPath (fuel : Nat) (n d side : Int) : List (Option Int) :=
  if n < 0 ∨ (n = 0 ∧ side < 0) then
    some 0 :: esbLoop fuel (-n + d) d (-side)
  else esbLoop fuel (n + d) d side

/-- Fuel sufficient for `_esb_path` on the ratio `(n, d)` (proved below). -/
def esbFuel (n d : Int) : Nat := n.natAbs + 2 * d.natAbs + 2

/-- `_esb_path` on an extended-real endpoint. -/
def esbPathX (x : XR) (side : Int) : List (Option Int) :=
  esbPath (esbFuel (x.toRatio).1 (x.toRatio).2) (x.toRatio).1 (x.toRatio).2 side

/-- `min` on coefficients, `none` being `math.inf`. -/
def minO : Option Int → Option Int → Option Int
  | none, y => y
  | some a, none => some a
  | some a, some b => some (min a b)

/-- `_common_prefix`: common elements while equal; at the first difference
the minimum, then stop; stop when either sequence ends. -/
def commonPart : List (Option Int) → List (Option Int) → List (Option Int)
  | x :: xs, y :: ys => if x = y then x :: commonPart xs ys else [minO x y]
  | _, _ => []

/-- The fold of `_from_esb_path`: `a, b, c, d = -1, 1, 1, 0`; `q == 0`
negates `a, c`; otherwise `a, b, c, d = c, d, a + q*c, b + q*d`.  An `inf`
coefficient would make the Python code fail on float arithmetic, hence
`none`. -/
def fromEsbFold : Int → Int → Int → Int → List (Option Int) → Option (Int × Int × Int × Int)
  | a, b, c, d, [] => some (a, b, c, d)
  | a, b, c, d, some q :: rest =>
    if q = 0 then fromEsbFold (-a) b (-c) d rest
    else fromEsbFold c d (a + q * c) (b + q * d) rest
  | _, _, _, _, none :: _ => none

/-- `_from_esb_path(path)` returning `Fraction(a + c, b + d)`. -/
def fromEsbPath (path : List (Option Int)) : Option ℚ :=
  match fromEsbFold (-1) 1 1 0 path with
  | none => none
  | some (a, b, c, d) => some (Rat.divInt (a + c) (b + d))

/-- Embedding of `simplest_in_interval(left, include_left, right,
include_right)` from `__init__.py` (the path-generator implementation). -/
def simplestInIntervalPath (left : XR) (includeLeft : Bool) (right : XR)
    (includeRight : Bool) : Except String (Option ℚ) :=
  let leftSide : Int := if includeLeft then 0 else 1
  let rightSide : Int := if includeRight then 0 else -1
  if lexGt left leftSide right rightSide then .error "empty interval"
  else
    .ok (fromEsbPath (commonPart (esbPathX left leftSide) (esbPathX right rightSide)))

/-- Embedding of `simplest_from_float(x)` from `__init__.py`, over the bit
pattern of `x`. -/
def simplestFromFloat (p : Nat) : Except String (Option ℚ) :=
  if isFiniteP p then
    let lrc := intervalRoundingTo p
    simplestInIntervalPath (.rat lrc.1) lrc.2.2 (.rat lrc.2.1) lrc.2.2
  else .error "x should be finite"

/-- Conversion of the matrix implementation's optional left endpoint. -/
def toXRL : Option ℚ → XR
  | none => .ninf
  | some q => .rat q

/-- Conversion of the matrix implementation's optional right endpoint. -/
def toXRR : Option ℚ → XR
  | none => .pinf
  | some q => .rat q

/-! ### Invariants of the generator states -/

/-- A stream side is a closed bound iff `side = 0`. -/
def sideClosed (s : Int) : Bool := decide (s = 0)

theorem sideClosed_neg (s : Int) : sideClosed (-s) = sideClosed s := by
  unfold sideClosed
  simp [neg_eq_zero]

theorem esbLoop_end {n d side : Int} (h : ¬ (d < n ∨ side ≠ 0)) (f : Nat) :
    esbLoop (f + 1) n d side = [] := by
  simp only [esbLoop, if_neg h]

theorem esbLoop_inf {n d side : Int} (h : d < n ∨ side ≠ 0) (h0 : d = 0) (f : Nat) :
    esbLoop (f + 1) n d side = [none] := by
  simp only [esbLoop, if_pos h, if_pos h0]

theorem esbLoop_cons {n d side : Int} (h : d < n ∨ side ≠ 0) (h0 : ¬ d = 0) (f : Nat) :
    esbLoop (f + 1) n d side =
      some ((n - b2i (decide (side ≤ 0))).fdiv d) ::
        esbLoop f d (n - (n - b2i (decide (side ≤ 0))).fdiv d * d) (-side) := by
  simp only [esbLoop, if_pos h, if_neg h0]
  have he : n - b2i (decide (side ≤ 0)) - (n - b2i (decide (side ≤ 0))).fdiv d * d
      + b2i (decide (side ≤ 0)) = n - (n - b2i (decide (side ≤ 0))).fdiv d * d := by
    ring
  rw [he]

theorem commonPart_nil_right (xs : List (Option Int)) : commonPart xs [] = [] := by
  cases xs <;> rfl

theorem minO_comm (x y : Option Int) : minO x y = minO y x := by
  cases x <;> cases y <;> simp [minO, min_comm]

theorem commonPart_comm (xs : List (Option Int)) :
    ∀ ys, commonPart xs ys = commonPart ys xs := by
  induction xs with
  | nil => intro ys; cases ys <;> rfl
  | cons x xs ihx =>
    intro ys
    cases ys with
    | nil => rfl
    | cons y ys =>
      simp only [commonPart]
      by_cases h : x = y
      · rw [if_pos h, if_pos h.symm, h, ihx]
      · rw [if_neg h, if_neg (fun hh => h hh.symm), minO_comm]

/-- Invariant for a lockstep pair of generator states: the first state is
the lower bound of the current transformed interval (side `0` closed, `1`
open-from-above), the second the upper bound (side `0` closed, `-1`
open-from-below), and the interval is nonempty. -/
def PairInv (nL dL sL nR dR sR : Int) : Prop :=
  1 ≤ dL ∧ dL ≤ nL ∧ (sL = 0 ∨ sL = 1) ∧
    0 ≤ dR ∧ dR ≤ nR ∧ 1 ≤ nR ∧ (sR = 0 ∨ sR = -1) ∧ (sR = 0 → 1 ≤ dR) ∧
    ¬ (nR = dR ∧ sR = -1) ∧
    (nL * dR < nR * dL ∨ (nL * dR = nR * dL ∧ sL = 0 ∧ sR = 0))

/-- Membership of `x / y` in the interval held by a pair of generator
states. -/
def memS (nL dL sL nR dR sR x y : Int) : Prop :=
  aboveB nL dL (sideClosed sL) x y ∧ belowB nR dR (sideClosed sR) x y

theorem memS_step_iff (nL dL sL nR dR sR q x y : Int) :
    memS dR (nR - q * dR) (-sR) dL (nL - q * dL) (-sL) x y ↔
      memS nL dL sL nR dR sR (q * x + y) x := by
  unfold memS
  rw [sideClosed_neg, sideClosed_neg,
    aboveB_step_iff dR nR q x y (sideClosed sR),
    belowB_step_iff nL dL q x y (sideClosed sL)]
  exact And.comm

/-- Members of an interval whose lower bound is at least one satisfy
`y ≤ x`. -/
theorem member_ge_den {n d x y : Int} {c : Bool} (hd : 1 ≤ d) (hdn : d ≤ n)
    (hy : 1 ≤ y) (h : aboveB n d c x y) : y ≤ x := by
  unfold aboveB at h
  cases c with
  | true =>
    simp only [if_true] at h
    have h1 : d * y ≤ x * d := le_trans (by nlinarith) h
    nlinarith
  | false =>
    simp only [Bool.false_eq_true, if_false] at h
    have h1 : d * y ≤ x * d := le_of_lt (lt_of_le_of_lt (by nlinarith) h)
    nlinarith

/-- For a lower-bound stream side, the divmod adjustment agrees with the
closedness flag. -/
theorem adjL_eq {s : Int} (hs : s = 0 ∨ s = 1) :
    b2i (decide (s ≤ 0)) = b2i (sideClosed s) := by
  rcases hs with h | h <;> subst h <;> rfl

/-- For an upper-bound stream side, the divmod adjustment is always one. -/
theorem adjR_eq {s : Int} (hs : s = 0 ∨ s = -1) : b2i (decide (s ≤ 0)) = 1 := by
  rcases hs with h | h <;> subst h <;> rfl

/-- The candidate `(q + 1)/1` lies above the lower-bound stream state. -/
theorem aboveB_q_succ {n d s : Int} (hd : 1 ≤ d) (hs : s = 0 ∨ s = 1) :
    aboveB n d (sideClosed s) ((n - b2i (decide (s ≤ 0))).fdiv d + 1) 1 := by
  obtain ⟨h1, h2⟩ := fdiv_bracket (n - b2i (decide (s ≤ 0))) (by omega : (0:Int) < d)
  unfold aboveB
  rcases hs with h | h <;> subst h
  · have hb : b2i (decide ((0:Int) ≤ 0)) = 1 := rfl
    rw [hb] at h1 h2 ⊢
    have hsc : sideClosed (0:Int) = true := rfl
    rw [hsc]
    simp only [if_true]
    nlinarith
  · have hb : b2i (decide ((1:Int) ≤ 0)) = 0 := rfl
    rw [hb] at h1 h2 ⊢
    have hsc : sideClosed (1:Int) = false := rfl
    rw [hsc]
    simp only [Bool.false_eq_true, if_false]
    nlinarith

/-- The candidate `(m + 1)/1` lies below the upper-bound stream state when
the stream is at infinity (`d = 0`) or its own quotient exceeds `m`. -/
theorem belowB_of_q_ge {n d s m : Int} (hn : 1 ≤ n) (hs : s = 0 ∨ s = -1)
    (h : d = 0 ∨ (1 ≤ d ∧ (m + 1) * d ≤ n - 1)) :
    belowB n d (sideClosed s) (m + 1) 1 := by
  unfold belowB
  have hbound : (m + 1) * d < n := by
    rcases h with h | ⟨h1, h2⟩
    · rw [h, mul_zero]; omega
    · omega
  rcases hs with h | h <;> subst h
  · have hsc : sideClosed (0:Int) = true := rfl
    rw [hsc]
    simp only [if_true]
    nlinarith [hbound]
  · have hsc : sideClosed (-1 : Int) = false := rfl
    rw [hsc]
    simp only [Bool.false_eq_true, if_false]
    nlinarith [hbound]

/-- Every member of the interval dominates the finishing candidate
`(m + 1)/1` where `m` is the lower stream's quotient. -/
theorem min_of_above {n d s x y : Int} (hd : 1 ≤ d) (hy : 1 ≤ y)
    (hs : s = 0 ∨ s = 1) (hcond : d ≤ n - b2i (decide (s ≤ 0)))
    (hab : aboveB n d (sideClosed s) x y) :
    (n - b2i (decide (s ≤ 0))).fdiv d + 1 ≤ x ∧ 1 ≤ y ∧
      (n - b2i (decide (s ≤ 0))).fdiv d ≤ x - y := by
  have hm1 : 1 ≤ (n - b2i (decide (s ≤ 0))).fdiv d := by
    obtain ⟨h1, h2⟩ := fdiv_bracket (n - b2i (decide (s ≤ 0))) (by omega : (0:Int) < d)
    nlinarith
  have hpull : 1 ≤ x - (n - b2i (decide (s ≤ 0))).fdiv d * y := by
    have hrw : b2i (decide (s ≤ 0)) = b2i (sideClosed s) := adjL_eq hs
    rw [hrw] at hcond ⊢
    exact member_pullback_pos hd hy hcond hab
  set q := (n - b2i (decide (s ≤ 0))).fdiv d with hq
  refine ⟨by nlinarith, hy, by nlinarith⟩

/-- Under the pair invariant, the lower stream's quotient never exceeds
the upper stream's. -/
theorem qL_le_qR {nL dL sL nR dR sR : Int}
    (hinv : PairInv nL dL sL nR dR sR) (hdR : 1 ≤ dR)
    (_hcondL : dL ≤ nL - b2i (decide (sL ≤ 0))) :
    (nL - b2i (decide (sL ≤ 0))).fdiv dL ≤ (nR - 1).fdiv dR := by
  obtain ⟨hdL1, hdLn, hsL, hdR0, hdRn, hnR1, hsR, hsR0, hnotR, hN⟩ := hinv
  by_contra hcon
  push_neg at hcon
  obtain ⟨hL1, hL2⟩ := fdiv_bracket (nL - b2i (decide (sL ≤ 0))) (by omega : (0:Int) < dL)
  obtain ⟨hR1, hR2⟩ := fdiv_bracket (nR - 1) (by omega : (0:Int) < dR)
  set qL := (nL - b2i (decide (sL ≤ 0))).fdiv dL with hqL
  set qR := (nR - 1).fdiv dR with hqR
  have hq : qR + 1 ≤ qL := by omega
  -- nR ≤ qL * dR
  have h1 : nR ≤ qL * dR := by nlinarith
  -- nL ≥ qL * dL + adj
  have h2 : qL * dL + b2i (decide (sL ≤ 0)) ≤ nL := by omega
  have hadj : 0 ≤ b2i (decide (sL ≤ 0)) ∧ b2i (decide (sL ≤ 0)) ≤ 1 := by
    unfold b2i; split <;> omega
  rcases hN with hN | ⟨hN, hsL0, hsR0'⟩
  · nlinarith
  · have hb : b2i (decide (sL ≤ 0)) = 1 := by rw [hsL0]; rfl
    have hdR1 : 1 ≤ dR := hsR0 hsR0'
    nlinarith

/-- One lockstep step preserves the pair invariant. -/
theorem pairInv_step {nL dL sL nR dR sR : Int} (q : Int)
    (hinv : PairInv nL dL sL nR dR sR) (hdR : 1 ≤ dR)
    (hcondL : dL ≤ nL - b2i (decide (sL ≤ 0)))
    (hqL : q = (nL - b2i (decide (sL ≤ 0))).fdiv dL)
    (hqR : q = (nR - 1).fdiv dR) :
    PairInv dR (nR - q * dR) (-sR) dL (nL - q * dL) (-sL) := by
  obtain ⟨hdL1, hdLn, hsL, hdR0, hdRn, hnR1, hsR, hsR0, hnotR, hN⟩ := hinv
  obtain ⟨hL1, hL2⟩ := fdiv_bracket (nL - b2i (decide (sL ≤ 0))) (by omega : (0:Int) < dL)
  obtain ⟨hR1, hR2⟩ := fdiv_bracket (nR - 1) (by omega : (0:Int) < dR)
  rw [← hqL] at hL1 hL2
  rw [← hqR] at hR1 hR2
  have hadj : 0 ≤ b2i (decide (sL ≤ 0)) ∧ b2i (decide (sL ≤ 0)) ≤ 1 := by
    unfold b2i; split <;> omega
  have hupper : nR - q * dR ≤ dR := by nlinarith
  have hlower : 1 ≤ nR - q * dR := by nlinarith
  have hupL : nL - q * dL ≤ dL := by
    have : nL - b2i (decide (sL ≤ 0)) < q * dL + dL := by nlinarith
    omega
  have hlowL : 0 ≤ nL - q * dL := by
    have : q * dL ≤ nL - b2i (decide (sL ≤ 0)) := hL1
    omega
  refine ⟨hlower, hupper, ?_, hlowL, hupL, hdL1, ?_, ?_, ?_, ?_⟩
  · rcases hsR with h | h <;> subst h
    · left; norm_num
    · right; norm_num
  · rcases hsL with h | h <;> subst h
    · left; norm_num
    · right; norm_num
  · intro hzero
    have hsL0 : sL = 0 := by omega
    have hb : b2i (decide (sL ≤ 0)) = 1 := by rw [hsL0]; rfl
    rw [hb] at hL1
    omega
  · rintro ⟨hfe, hfs⟩
    have hsL1 : sL = 1 := by omega
    have hb : b2i (decide (sL ≤ 0)) = 0 := by rw [hsL1]; rfl
    rw [hb] at hL2
    have : nL < q * dL + dL := by nlinarith
    omega
  · rcases hN with hN | ⟨hN, hsL0, hsR0'⟩
    · left; nlinarith
    · right
      refine ⟨by nlinarith, by omega, by omega⟩

theorem commonPart_nil_left (ys : List (Option Int)) : commonPart [] ys = [] := by
  cases ys <;> rfl

set_option maxHeartbeats 1600000 in
/-- Master theorem for the generator pair: folding `_from_esb_path`'s
matrix over the common prefix of the two streams lands on the simplest
fraction of the interval held by the pair of states. -/
theorem cpMain (μ : Nat) :
    ∀ (fL fR : Nat) (nL dL sL nR dR sR A B C D : Int),
    PairInv nL dL sL nR dR sR →
    (nL + dL).toNat + (nR + dR).toNat ≤ μ →
    (nL + dL).toNat < fL → (nR + dR).toNat < fR →
    ∃ X Y : Int, 1 ≤ Y ∧ Y ≤ X ∧ Int.gcd X Y = 1 ∧
      memS nL dL sL nR dR sR X Y ∧
      (∀ x y : Int, 1 ≤ y → memS nL dL sL nR dR sR x y →
        X ≤ x ∧ Y ≤ y ∧ X - Y ≤ x - y) ∧
      ∃ M : Int × Int × Int × Int,
        fromEsbFold A B C D (commonPart (esbLoop fL nL dL sL) (esbLoop fR nR dR sR))
          = some M ∧
        M.1 + M.2.2.1 = A * Y + C * X ∧ M.2.1 + M.2.2.2 = B * Y + D * X := by
  induction μ with
  | zero =>
    intro fL fR nL dL sL nR dR sR A B C D hinv hμ _ _
    obtain ⟨hdL1, hdLn, _⟩ := hinv
    omega
  | succ μ ih =>
    intro fL fR nL dL sL nR dR sR A B C D hinv hμ hfL hfR
    obtain ⟨hdL1, hdLn, hsL, hdR0, hdRn, hnR1, hsR, hsR0, hnotR, hN⟩ := hinv
    have hinv' : PairInv nL dL sL nR dR sR :=
      ⟨hdL1, hdLn, hsL, hdR0, hdRn, hnR1, hsR, hsR0, hnotR, hN⟩
    obtain ⟨fL', rfl⟩ : ∃ k, fL = k + 1 := ⟨fL - 1, by omega⟩
    obtain ⟨fR', rfl⟩ : ∃ k, fR = k + 1 := ⟨fR - 1, by omega⟩
    by_cases hLcond : dL < nL ∨ sL ≠ 0
    case neg =>
      -- the lower stream has ended: its bound is the closed value 1
      push_neg at hLcond
      obtain ⟨hnle, hsL0⟩ := hLcond
      have hnLdL : nL = dL := by omega
      rw [esbLoop_end (by push_neg; exact ⟨hnle, hsL0⟩) fL', commonPart_nil_left]
      refine ⟨1, 1, le_refl 1, le_refl 1, by decide, ⟨?_, ?_⟩, ?_,
        ⟨(A, B, C, D), rfl, by ring, by ring⟩⟩
      · rw [hsL0]
        have hsc : sideClosed (0:Int) = true := rfl
        rw [hsc]
        unfold aboveB
        simp only [if_true]
        nlinarith
      · unfold belowB
        rcases hsR with h | h <;> rw [h]
        · have hsc : sideClosed (0:Int) = true := rfl
          rw [hsc]
          simp only [if_true]
          nlinarith
        · have hsc : sideClosed (-1:Int) = false := rfl
          rw [hsc]
          simp only [Bool.false_eq_true, if_false]
          have hne : nR ≠ dR := fun hh => hnotR ⟨hh, h⟩
          nlinarith [lt_of_le_of_ne hdRn (Ne.symm hne)]
      · intro x y hy hmem
        refine ⟨member_num_pos hdL1 hy (Or.inl (by omega)) hmem.1, hy, ?_⟩
        have := member_ge_den hdL1 hdLn hy hmem.1
        omega
    case pos =>
      by_cases hRcond : dR < nR ∨ sR ≠ 0
      case neg =>
        -- the upper stream has ended: its bound is the closed value 1
        push_neg at hRcond
        obtain ⟨hnle, hsR0'⟩ := hRcond
        have hnRdR : nR = dR := by omega
        have hdR1 : 1 ≤ dR := hsR0 hsR0'
        rw [esbLoop_end (by push_neg; exact ⟨hnle, hsR0'⟩) fR', commonPart_nil_right]
        refine ⟨1, 1, le_refl 1, le_refl 1, by decide, ⟨?_, ?_⟩, ?_,
          ⟨(A, B, C, D), rfl, by ring, by ring⟩⟩
        · have hlt : nL ≤ dL ∧ (sideClosed sL = false → nL < dL) := by
            rcases hN with hN | ⟨hN, hsL0, _⟩
            · have : nL < dL := by nlinarith [hnRdR]
              exact ⟨this.le, fun _ => this⟩
            · have : nL = dL := by nlinarith [hnRdR]
              refine ⟨this.le, fun hf => ?_⟩
              rw [hsL0] at hf
              exact absurd hf (by decide)
          unfold aboveB
          cases hcs : sideClosed sL with
          | true => simp only [if_true]; nlinarith [hlt.1]
          | false =>
            simp only [Bool.false_eq_true, if_false]
            nlinarith [hlt.2 hcs]
        · rw [hsR0']
          have hsc : sideClosed (0:Int) = true := rfl
          rw [hsc]
          unfold belowB
          simp only [if_true]
          nlinarith
        · intro x y hy hmem
          refine ⟨member_num_pos hdL1 hy (Or.inl (by omega)) hmem.1, hy, ?_⟩
          have := member_ge_den hdL1 hdLn hy hmem.1
          omega
      case pos =>
        -- both streams advance
        have hdL0 : ¬ dL = 0 := by omega
        have hadjL01 : 0 ≤ b2i (decide (sL ≤ 0)) ∧ b2i (decide (sL ≤ 0)) ≤ 1 := by
          unfold b2i; split <;> omega
        have hcondL : dL ≤ nL - b2i (decide (sL ≤ 0)) := by
          rcases hLcond with h | h
          · omega
          · have hsL1 : sL = 1 := by rcases hsL with h0 | h0; exact absurd h0 h; exact h0
            have hb : b2i (decide (sL ≤ 0)) = 0 := by rw [hsL1]; rfl
            omega
        have hcondR : dR ≤ nR - 1 := by
          rcases hRcond with h | h
          · omega
          · have hsRm : sR = -1 := by rcases hsR with h0 | h0; exact absurd h0 h; exact h0
            have hne : nR ≠ dR := fun hh => hnotR ⟨hh, hsRm⟩
            omega
        set qL := (nL - b2i (decide (sL ≤ 0))).fdiv dL with hqLdef
        have hqL1 : 1 ≤ qL := quotient_ge_one hdL1 hcondL
        obtain ⟨hL1, hL2⟩ := fdiv_bracket (nL - b2i (decide (sL ≤ 0)))
          (by omega : (0:Int) < dL)
        rw [← hqLdef] at hL1 hL2
        rw [esbLoop_cons hLcond hdL0 fL', ← hqLdef]
        by_cases hdRz : dR = 0
        · -- upper stream yields `inf`: streams differ, finish with `qL`
          rw [esbLoop_inf hRcond hdRz fR']
          have hcp : commonPart
              (some qL :: esbLoop fL' dL (nL - qL * dL) (-sL)) [none] = [some qL] := by
            simp only [commonPart]
            rw [if_neg (by simp : ¬ (some qL : Option Int) = none)]
            rfl
          rw [hcp]
          have hfold : fromEsbFold A B C D [some qL]
              = some (C, D, A + qL * C, B + qL * D) := by
            simp only [fromEsbFold]
            rw [if_neg (by omega : ¬ qL = 0)]
          refine ⟨qL + 1, 1, le_refl 1, by omega, Nat.gcd_one_right _, ⟨?_, ?_⟩, ?_,
            ⟨(C, D, A + qL * C, B + qL * D), hfold, by ring, by ring⟩⟩
          · rw [hqLdef]
            exact aboveB_q_succ hdL1 hsL
          · exact belowB_of_q_ge hnR1 hsR (Or.inl hdRz)
          · intro x y hy hmem
            have hmo := min_of_above hdL1 hy hsL hcondL hmem.1
            rw [← hqLdef] at hmo
            exact ⟨hmo.1, hmo.2.1, by omega⟩
        · -- both streams produce a quotient
          have hdR1 : 1 ≤ dR := by omega
          set qR := (nR - 1).fdiv dR with hqRdef
          obtain ⟨hR1, hR2⟩ := fdiv_bracket (nR - 1) (by omega : (0:Int) < dR)
          rw [← hqRdef] at hR1 hR2
          have hqR1 : 1 ≤ qR := by nlinarith
          rw [esbLoop_cons hRcond hdRz fR', adjR_eq hsR, ← hqRdef]
          by_cases hq : qL = qR
          · -- lockstep: both heads agree, recurse on the stepped pair
            have hcp : commonPart (some qL :: esbLoop fL' dL (nL - qL * dL) (-sL))
                (some qR :: esbLoop fR' dR (nR - qR * dR) (-sR))
                = some qL :: commonPart (esbLoop fL' dL (nL - qL * dL) (-sL))
                    (esbLoop fR' dR (nR - qR * dR) (-sR)) := by
              simp only [commonPart]
              rw [if_pos (by rw [hq])]
            rw [hcp]
            have hfold : ∀ rest, fromEsbFold A B C D (some qL :: rest)
                = fromEsbFold C D (A + qL * C) (B + qL * D) rest := by
              intro rest
              simp only [fromEsbFold]
              rw [if_neg (by omega : ¬ qL = 0)]
            rw [hfold, commonPart_comm]
            rw [← hq] at hR1 hR2 ⊢
            have hexR : (qL + 1) * dR = qL * dR + dR := by ring
            have hexL : (qL + 1) * dL = qL * dL + dL := by ring
            have hA1 : 1 ≤ nR - qL * dR := by omega
            have hA2 : nR - qL * dR ≤ dR := by omega
            have hA3 : 0 ≤ nL - qL * dL := by omega
            have hA4 : nL - qL * dL ≤ dL := by omega
            have hA5 : 0 < qL * dR := mul_pos (by omega) (by omega)
            have hA6 : 0 < qL * dL := mul_pos (by omega) (by omega)
            have hstep := pairInv_step qL hinv' hdR1 hcondL hqLdef (by rw [hq, hqRdef])
            obtain ⟨X', Y', hY'1, hY'X, hgcd', hmem', hmin', M, hM, hMac, hMbd⟩ :=
              ih fR' fL' dR (nR - qL * dR) (-sR) dL (nL - qL * dL) (-sL)
                C D (A + qL * C) (B + qL * D) hstep (by omega) (by omega) (by omega)
            have hX'0 : 0 ≤ X' := by omega
            have hXup : X' * 1 ≤ X' * qL :=
              mul_le_mul_of_nonneg_left (by omega : (1:Int) ≤ qL) hX'0
            have hYle : X' ≤ qL * X' + Y' := by nlinarith [hXup]
            refine ⟨qL * X' + Y', X', by omega, hYle,
              ?_, ?_, ?_, ⟨M, hM, by rw [hMac]; ring, by rw [hMbd]; ring⟩⟩
            · have hco : IsCoprime X' Y' := Int.gcd_eq_one_iff_coprime.mp hgcd'
              have hco2 : IsCoprime (Y' + X' * qL) X' := hco.symm.add_mul_left_left qL
              have he : qL * X' + Y' = Y' + X' * qL := by ring
              rw [he, Int.gcd_eq_one_iff_coprime]
              exact hco2
            · exact (memS_step_iff nL dL sL nR dR sR qL X' Y').mp hmem'
            · intro x y hy hmem
              have hpull : 1 ≤ x - qL * y := by
                have hrw : b2i (decide (sL ≤ 0)) = b2i (sideClosed sL) := adjL_eq hsL
                have hc : dL ≤ nL - b2i (sideClosed sL) := by rw [← hrw]; exact hcondL
                have := member_pullback_pos hdL1 hy hc hmem.1
                rw [← hrw, ← hqLdef] at this
                exact this
              have hmem2 : memS dR (nR - qL * dR) (-sR) dL (nL - qL * dL) (-sL)
                  y (x - qL * y) := by
                rw [memS_step_iff nL dL sL nR dR sR qL y (x - qL * y)]
                have he : qL * y + (x - qL * y) = x := by ring
                rw [he]
                exact hmem
              obtain ⟨ha, hb, hc⟩ := hmin' y (x - qL * y) hpull hmem2
              have hmul : qL * X' ≤ qL * y :=
                mul_le_mul_of_nonneg_left ha (by omega : (0:Int) ≤ qL)
              have hmul2 : (qL - 1) * X' ≤ (qL - 1) * y :=
                mul_le_mul_of_nonneg_left ha (by omega : (0:Int) ≤ qL - 1)
              refine ⟨by linarith, ha, by nlinarith [hmul2, hb]⟩
          · -- the streams disagree: finish with `min qL qR = qL`
            have hle : qL ≤ qR := by
              rw [hqLdef, hqRdef]
              exact qL_le_qR hinv' hdR1 hcondL
            have hcp : commonPart (some qL :: esbLoop fL' dL (nL - qL * dL) (-sL))
                (some qR :: esbLoop fR' dR (nR - qR * dR) (-sR)) = [some qL] := by
              simp only [commonPart]
              rw [if_neg (by simp [hq] : ¬ (some qL : Option Int) = some qR)]
              simp [minO, min_eq_left hle]
            rw [hcp]
            have hfold : fromEsbFold A B C D [some qL]
                = some (C, D, A + qL * C, B + qL * D) := by
              simp only [fromEsbFold]
              rw [if_neg (by omega : ¬ qL = 0)]
            refine ⟨qL + 1, 1, le_refl 1, by omega, Nat.gcd_one_right _, ⟨?_, ?_⟩, ?_,
              ⟨(C, D, A + qL * C, B + qL * D), hfold, by ring, by ring⟩⟩
            · rw [hqLdef]
              exact aboveB_q_succ hdL1 hsL
            · refine belowB_of_q_ge hnR1 hsR (Or.inr ⟨hdR1, ?_⟩)
              have hlt : qL + 1 ≤ qR := by omega
              nlinarith
            · intro x y hy hmem
              have hmo := min_of_above hdL1 hy hsL hcondL hmem.1
              rw [← hqLdef] at hmo
              exact ⟨hmo.1, hmo.2.1, by omega⟩

/-! ### From the pair theorem to the fraction-level specification -/

theorem gcd_shift_down {X Y : Int} (h : Int.gcd X Y = 1) : Int.gcd (X - Y) Y = 1 := by
  have hco : IsCoprime X Y := Int.gcd_eq_one_iff_coprime.mp h
  have hco2 : IsCoprime (X + Y * (-1)) Y := hco.add_mul_left_left (-1)
  have he : X + Y * (-1) = X - Y := by ring
  rw [he] at hco2
  exact Int.gcd_eq_one_iff_coprime.mpr hco2

theorem gcd_flip {X Y : Int} (h : Int.gcd (X - Y) Y = 1) : Int.gcd (Y - X) Y = 1 := by
  have he : Y - X = -(X - Y) := by ring
  rw [he, Int.neg_gcd]
  exact h

theorem sideClosed_ifL (lc : Bool) : sideClosed (if lc then (0:Int) else 1) = lc := by
  cases lc <;> rfl

theorem sideClosed_ifR (rc : Bool) : sideClosed (if rc then (0:Int) else -1) = rc := by
  cases rc <;> rfl

theorem neg_sideL (lc : Bool) :
    -(if lc then (0:Int) else 1) = (if lc then (0:Int) else -1) := by
  cases lc <;> norm_num

theorem neg_sideR (rc : Bool) :
    -(if rc then (0:Int) else -1) = (if rc then (0:Int) else 1) := by
  cases rc <;> norm_num

theorem esbPath_noflip {n d side : Int} (h : ¬ (n < 0 ∨ (n = 0 ∧ side < 0))) (f : Nat) :
    esbPath f n d side = esbLoop f (n + d) d side := by
  unfold esbPath
  rw [if_neg h]

theorem esbPath_flip {n d side : Int} (h : n < 0 ∨ (n = 0 ∧ side < 0)) (f : Nat) :
    esbPath f n d side = some 0 :: esbLoop f (-n + d) d (-side) := by
  unfold esbPath
  rw [if_pos h]

/-- Instantiation of the master theorem at the data of an interval of the
nonnegative reals, described by the left endpoint `ln/ld` and the right
endpoint `rn/rd` (with the `(1, 0)` sentinel for `+inf`). -/
theorem cpApply (ln ld rn rd : Int) (lc rc : Bool) (fL fR : Nat) (A B C D : Int)
    (hld : 1 ≤ ld) (hln : 0 ≤ ln) (hrd : 0 ≤ rd) (hrn : 0 ≤ rn)
    (hrdz : rd = 0 → rn = 1 ∧ rc = false)
    (hrz : rn = 0 → rc = true ∧ 1 ≤ rd)
    (hN : ln * rd < rn * ld ∨ (ln * rd = rn * ld ∧ lc = true ∧ rc = true))
    (hfL : (ln + 2 * ld).toNat < fL) (hfR : (rn + 2 * rd).toNat < fR) :
    ∃ X Y : Int, 1 ≤ Y ∧ Y ≤ X ∧ Int.gcd X Y = 1 ∧
      memJ ln ld lc rn rd rc (X - Y) Y ∧
      (∀ x y : Int, 1 ≤ y → memJ ln ld lc rn rd rc x y → X - Y ≤ x ∧ Y ≤ y) ∧
      ∃ M : Int × Int × Int × Int,
        fromEsbFold A B C D
          (commonPart (esbLoop fL (ln + ld) ld (if lc then (0:Int) else 1))
            (esbLoop fR (rn + rd) rd (if rc then (0:Int) else -1))) = some M ∧
        M.1 + M.2.2.1 = A * Y + C * X ∧ M.2.1 + M.2.2.2 = B * Y + D * X := by
  have hrd1 : rd = 0 ∨ 1 ≤ rd := by omega
  have hinv : PairInv (ln + ld) ld (if lc then (0:Int) else 1)
      (rn + rd) rd (if rc then (0:Int) else -1) := by
    refine ⟨hld, by omega, ?_, hrd, by omega, ?_, ?_, ?_, ?_, ?_⟩
    · cases lc with
      | false => exact Or.inr rfl
      | true => exact Or.inl rfl
    · rcases hrd1 with h | h
      · have := (hrdz h).1
        omega
      · omega
    · cases rc with
      | false => exact Or.inr rfl
      | true => exact Or.inl rfl
    · cases rc with
      | false => intro h; exact absurd h (by norm_num)
      | true =>
        intro _
        rcases hrd1 with h | h
        · exact absurd (hrdz h).2 (by simp)
        · exact h
    · rintro ⟨h1, h2⟩
      have hrn0 : rn = 0 := by omega
      have hrc := (hrz hrn0).1
      rw [hrc] at h2
      norm_num at h2
    · rcases hN with h | ⟨h, hlc, hrc⟩
      · left
        nlinarith
      · right
        refine ⟨by linear_combination h, by simp [hlc], by simp [hrc]⟩
  obtain ⟨X, Y, hY1, hYX, hgcd, hmem, hmin, M, hM, hMac, hMbd⟩ :=
    cpMain ((ln + ld + ld).toNat + (rn + rd + rd).toNat) fL fR
      (ln + ld) ld (if lc then (0:Int) else 1) (rn + rd) rd
      (if rc then (0:Int) else -1) A B C D hinv (by omega) (by omega) (by omega)
  refine ⟨X, Y, hY1, hYX, hgcd, ?_, ?_, M, hM, hMac, hMbd⟩
  · obtain ⟨h1, h2⟩ := hmem
    rw [sideClosed_ifL] at h1
    rw [sideClosed_ifR] at h2
    exact (memJ_shift_iff ln ld rn rd X Y lc rc).mp ⟨h1, h2⟩
  · intro x y hy hxy
    have hxeq : x + y - y = x := by ring
    have hshift := (memJ_shift_iff ln ld rn rd (x + y) y lc rc).mpr (by rw [hxeq]; exact hxy)
    have hS : memS (ln + ld) ld (if lc then (0:Int) else 1) (rn + rd) rd
        (if rc then (0:Int) else -1) (x + y) y := by
      refine ⟨?_, ?_⟩
      · rw [sideClosed_ifL]
        exact hshift.1
      · rw [sideClosed_ifR]
        exact hshift.2
    obtain ⟨m1, m2, m3⟩ := hmin (x + y) y hy hS
    exact ⟨by omega, m2⟩

/-- The value computed by `simplest_in_interval` of `__init__.py` past its
emptiness guard. -/
def pathRun (left right : Option ℚ) (il ir : Bool) : Option ℚ :=
  fromEsbPath (commonPart
    (esbPathX (toXRL left) (if il then (0:Int) else 1))
    (esbPathX (toXRR right) (if ir then (0:Int) else -1)))

theorem memQ_iff_memJ (left right : Option ℚ) (il ir : Bool) (z : ℚ) :
    memQ left right il ir z ↔
      memJ (lnum left) (lden left) il (rnum right) (rden right) ir z.num (z.den : Int) := by
  unfold memQ memJ
  rw [lower_mem_iff, upper_mem_iff]

/-- The path computation on an interval with a nonnegative finite left
endpoint (and hence a positive or infinite right endpoint): the result is
the member of the interval dominated by every member. -/
theorem pathRun_pos (right : Option ℚ) (il ir : Bool) (l : ℚ)
    (hln : 0 ≤ l.num)
    (hr : right = none → ir = false)
    (hne : NonemptyI (some l) right il ir)
    (hrpos : ∀ r, right = some r → 0 < r ∨ (r = 0 ∧ ir = true)) :
    ∃ x : ℚ, pathRun (some l) right il ir = some x ∧ memQ (some l) right il ir x ∧
      ∀ y : ℚ, memQ (some l) right il ir y → |x.num| ≤ |y.num| ∧ x.den ≤ y.den := by
  have hLpath : esbPathX (toXRL (some l)) (if il then (0:Int) else 1)
      = esbLoop (esbFuel l.num (l.den:Int)) (l.num + (l.den:Int)) (l.den:Int)
          (if il then (0:Int) else 1) := by
    dsimp only [esbPathX, toXRL, XR.toRatio]
    exact esbPath_noflip (by
      rintro (h | ⟨h1, h2⟩)
      · omega
      · cases il <;> norm_num at h2) _
  have hRpath : esbPathX (toXRR right) (if ir then (0:Int) else -1)
      = esbLoop (esbFuel (rnum right) (rden right)) (rnum right + rden right) (rden right)
          (if ir then (0:Int) else -1) := by
    cases right with
    | none =>
      dsimp only [esbPathX, toXRR, XR.toRatio, rnum, rden]
      exact esbPath_noflip (by rintro (h | ⟨h1, h2⟩) <;> omega) _
    | some r =>
      dsimp only [esbPathX, toXRR, XR.toRatio, rnum, rden]
      refine esbPath_noflip ?_ _
      have hnum : 0 ≤ r.num ∧ (r.num = 0 → ir = true) := by
        rcases hrpos r rfl with hp | ⟨hp, hp2⟩
        · have := Rat.num_pos.mpr hp
          exact ⟨by omega, fun h0 => by omega⟩
        · have := Rat.num_eq_zero.mpr hp
          exact ⟨by omega, fun _ => hp2⟩
      rintro (h | ⟨h1, h2⟩)
      · omega
      · rw [hnum.2 h1] at h2
        norm_num at h2
  have hld' : (1:Int) ≤ (l.den : Int) := by exact_mod_cast l.pos
  have hrd' : 0 ≤ rden right := by
    cases right with
    | none => norm_num [rden]
    | some r => exact Int.ofNat_nonneg r.den
  have hrn' : 0 ≤ rnum right := by
    cases right with
    | none => norm_num [rnum]
    | some r =>
      simp only [rnum]
      rcases hrpos r rfl with hp | ⟨hp, _⟩
      · have := Rat.num_pos.mpr hp
        omega
      · have := Rat.num_eq_zero.mpr hp
        omega
  have hrdz' : rden right = 0 → rnum right = 1 ∧ ir = false := by
    cases right with
    | none => exact fun _ => ⟨rfl, hr rfl⟩
    | some r =>
      intro h0
      have := r.pos
      simp only [rden] at h0
      omega
  have hrz' : rnum right = 0 → ir = true ∧ 1 ≤ rden right := by
    cases right with
    | none =>
      intro h0
      simp only [rnum] at h0
      omega
    | some r =>
      intro h0
      simp only [rnum] at h0
      have hr0 : r = 0 := Rat.num_eq_zero.mp h0
      rcases hrpos r rfl with hp | ⟨_, hp2⟩
      · rw [hr0] at hp
        exact absurd hp (lt_irrefl 0)
      · refine ⟨hp2, ?_⟩
        simp only [rden]
        have := r.pos
        omega
  have hN' : l.num * rden right < rnum right * (l.den:Int) ∨
      (l.num * rden right = rnum right * (l.den:Int) ∧ il = true ∧ ir = true) := by
    cases right with
    | none =>
      left
      simp only [rnum, rden]
      have := l.pos
      nlinarith [hld']
    | some r =>
      unfold NonemptyI at hne
      simp only [rnum, rden]
      rcases hne with h1 | ⟨h1, h2, h3⟩
      · exact Or.inl (Rat.lt_def.mp h1)
      · subst h1
        exact Or.inr ⟨rfl, h2, h3⟩
  have hfL' : (l.num + 2 * (l.den:Int)).toNat < esbFuel l.num (l.den:Int) := by
    unfold esbFuel
    omega
  have hfR' : (rnum right + 2 * rden right).toNat < esbFuel (rnum right) (rden right) := by
    unfold esbFuel
    omega
  obtain ⟨X, Y, hY1, hYX, hgcd, hmemJ, hmin, M, hM, hMac, hMbd⟩ :=
    cpApply l.num (l.den:Int) (rnum right) (rden right) il ir
      (esbFuel l.num (l.den:Int)) (esbFuel (rnum right) (rden right)) (-1) 1 1 0
      hld' hln hrd' hrn' hrdz' hrz' hN' hfL' hfR'
  obtain ⟨Ma, Mb, Mc, Md⟩ := M
  dsimp only at hMac hMbd
  have hac : Ma + Mc = X - Y := by rw [hMac]; ring
  have hbd : Mb + Md = Y := by rw [hMbd]; ring
  have hY0 : (0:Int) < Y := by omega
  have hg2 : Int.gcd (X - Y) Y = 1 := gcd_shift_down hgcd
  obtain ⟨hxnum, hxden⟩ := divInt_num_den hY0 hg2
  refine ⟨Rat.divInt (X - Y) Y, ?_, ?_, ?_⟩
  · unfold pathRun
    rw [hLpath, hRpath]
    unfold fromEsbPath
    rw [hM]
    dsimp only
    rw [hac, hbd]
  · rw [memQ_iff_memJ]
    simp only [lnum, lden]
    rw [hxnum, hxden]
    exact hmemJ
  · intro y hy
    have hyJ := (memQ_iff_memJ (some l) right il ir y).mp hy
    simp only [lnum, lden] at hyJ
    have hy1 : (1:Int) ≤ (y.den : Int) := by exact_mod_cast y.pos
    obtain ⟨ha, hb⟩ := hmin y.num (y.den:Int) hy1 hyJ
    constructor
    · rw [hxnum]
      calc |X - Y| = X - Y := abs_of_nonneg (by omega)
        _ ≤ y.num := ha
        _ ≤ |y.num| := le_abs_self _
    · have hc : ((Rat.divInt (X - Y) Y).den : Int) ≤ (y.den : Int) := by
        rw [hxden]
        exact hb
      exact_mod_cast hc

theorem commonPart_cons_eq (x : Option Int) (xs ys : List (Option Int)) :
    commonPart (x :: xs) (x :: ys) = x :: commonPart xs ys := by
  simp [commonPart]

theorem fromEsbFold_zero_head (A B C D : Int) (rest : List (Option Int)) :
    fromEsbFold A B C D (some 0 :: rest) = fromEsbFold (-A) B (-C) D rest := by
  simp [fromEsbFold]

/-- The path computation on an interval with a negative (or zero excluded)
finite right endpoint: both streams first yield `0`, and afterwards run the
negated interval, which lies in the nonnegative reals. -/
theorem pathRun_neg (left : Option ℚ) (il ir : Bool) (r : ℚ)
    (hl : left = none → il = false)
    (hne : NonemptyI left (some r) il ir)
    (hneg : r < 0 ∨ (r = 0 ∧ ir = false)) :
    ∃ x : ℚ, pathRun left (some r) il ir = some x ∧ memQ left (some r) il ir x ∧
      ∀ y : ℚ, memQ left (some r) il ir y → |x.num| ≤ |y.num| ∧ x.den ≤ y.den := by
  have hrnum : r.num ≤ 0 ∧ (r.num = 0 → ir = false) := by
    rcases hneg with h | ⟨h, hir⟩
    · have := Rat.num_neg.mpr h
      exact ⟨by omega, fun h0 => by omega⟩
    · have := Rat.num_eq_zero.mpr h
      exact ⟨by omega, fun _ => hir⟩
  have hlneg : ∀ l0, left = some l0 → l0.num < 0 := by
    intro l0 hl0
    subst hl0
    unfold NonemptyI at hne
    refine Rat.num_neg.mpr ?_
    rcases hne with h1 | ⟨h1, h2, h3⟩
    · rcases hneg with h | ⟨h, _⟩
      · exact h1.trans h
      · rw [h] at h1
        exact h1
    · rcases hneg with h | ⟨h, hir⟩
      · rw [h1]
        exact h
      · rw [h3] at hir
        exact absurd hir (by simp)
  have hRflip : esbPathX (toXRR (some r)) (if ir then (0:Int) else -1)
      = some 0 :: esbLoop (esbFuel r.num (r.den:Int)) (-r.num + (r.den:Int)) (r.den:Int)
          (if ir then (0:Int) else 1) := by
    dsimp only [esbPathX, toXRR, XR.toRatio]
    have hc : r.num < 0 ∨ (r.num = 0 ∧ (if ir then (0:Int) else -1) < 0) := by
      rcases hneg with h | ⟨h, hir⟩
      · exact Or.inl (Rat.num_neg.mpr h)
      · refine Or.inr ⟨Rat.num_eq_zero.mpr h, ?_⟩
        rw [hir]
        norm_num
    rw [esbPath_flip hc, neg_sideR]
  have hLflip : esbPathX (toXRL left) (if il then (0:Int) else 1)
      = some 0 :: esbLoop (esbFuel (lnum left) (lden left)) (-(lnum left) + lden left)
          (lden left) (if il then (0:Int) else -1) := by
    cases left with
    | none =>
      dsimp only [esbPathX, toXRL, XR.toRatio, lnum, lden]
      rw [esbPath_flip (Or.inl (by norm_num)), neg_sideL]
    | some l =>
      dsimp only [esbPathX, toXRL, XR.toRatio, lnum, lden]
      rw [esbPath_flip (Or.inl (hlneg l rfl)), neg_sideL]
  have hld' : (1:Int) ≤ (r.den : Int) := by exact_mod_cast r.pos
  have hln' : (0:Int) ≤ -r.num := by omega
  have hrd' : 0 ≤ lden left := by
    cases left with
    | none => norm_num [lden]
    | some l => exact Int.ofNat_nonneg l.den
  have hrn' : 0 ≤ -(lnum left) := by
    cases left with
    | none => norm_num [lnum]
    | some l =>
      have := hlneg l rfl
      simp only [lnum]
      omega
  have hrdz' : lden left = 0 → -(lnum left) = 1 ∧ il = false := by
    cases left with
    | none => exact fun _ => ⟨by norm_num [lnum], hl rfl⟩
    | some l =>
      intro h0
      have := l.pos
      simp only [lden] at h0
      omega
  have hrz' : -(lnum left) = 0 → il = true ∧ 1 ≤ lden left := by
    cases left with
    | none =>
      intro h0
      norm_num [lnum] at h0
    | some l =>
      intro h0
      have := hlneg l rfl
      simp only [lnum] at h0
      omega
  have hN' : (-r.num) * lden left < (-(lnum left)) * (r.den:Int) ∨
      ((-r.num) * lden left = (-(lnum left)) * (r.den:Int) ∧ ir = true ∧ il = true) := by
    cases left with
    | none =>
      left
      simp only [lnum, lden]
      nlinarith [hld', hln']
    | some l =>
      unfold NonemptyI at hne
      simp only [lnum, lden]
      rcases hne with h1 | ⟨h1, h2, h3⟩
      · have := Rat.lt_def.mp h1
        left
        linarith
      · subst h1
        exact Or.inr ⟨by ring, h3, h2⟩
  have hfL' : ((-r.num) + 2 * (r.den:Int)).toNat < esbFuel r.num (r.den:Int) := by
    unfold esbFuel
    omega
  have hfR' : (-(lnum left) + 2 * lden left).toNat < esbFuel (lnum left) (lden left) := by
    unfold esbFuel
    omega
  obtain ⟨X, Y, hY1, hYX, hgcd, hmemJ, hmin, M, hM, hMac, hMbd⟩ :=
    cpApply (-r.num) (r.den:Int) (-(lnum left)) (lden left) ir il
      (esbFuel r.num (r.den:Int)) (esbFuel (lnum left) (lden left)) 1 1 (-1) 0
      hld' hln' hrd' hrn' hrdz' hrz' hN' hfL' hfR'
  obtain ⟨Ma, Mb, Mc, Md⟩ := M
  dsimp only at hMac hMbd
  have hac : Ma + Mc = Y - X := by rw [hMac]; ring
  have hbd : Mb + Md = Y := by rw [hMbd]; ring
  have hY0 : (0:Int) < Y := by omega
  have hg2 : Int.gcd (X - Y) Y = 1 := gcd_shift_down hgcd
  have hg3 : Int.gcd (Y - X) Y = 1 := gcd_flip hg2
  obtain ⟨hxnum, hxden⟩ := divInt_num_den hY0 hg3
  obtain ⟨hwnum, hwden⟩ := divInt_num_den hY0 hg2
  have hnegx : Rat.divInt (X - Y) Y = -(Rat.divInt (Y - X) Y) := by
    have he : X - Y = -(Y - X) := by ring
    rw [he, ← Rat.neg_divInt]
  have hmemflip : memQ (some (-r)) (left.map fun q => -q) ir il (Rat.divInt (X - Y) Y) := by
    rw [memQ_iff_memJ]
    rw [hwnum, hwden]
    have e1 : lnum (some (-r)) = -r.num := by
      simp only [lnum]
      exact Rat.num_neg_eq_neg_num r
    have e2 : lden (some (-r)) = (r.den : Int) := by
      simp only [lden]
      rw [Rat.den_neg_eq_den]
    have e3 : rnum (left.map fun q => -q) = -(lnum left) := by
      cases left with
      | none => norm_num [rnum, lnum]
      | some l =>
        simp only [Option.map_some', rnum, lnum]
        exact Rat.num_neg_eq_neg_num l
    have e4 : rden (left.map fun q => -q) = lden left := by
      cases left with
      | none => norm_num [rden, lden]
      | some l =>
        simp only [Option.map_some', rden, lden]
        rw [Rat.den_neg_eq_den]
    rw [e1, e2, e3, e4]
    exact hmemJ
  refine ⟨Rat.divInt (Y - X) Y, ?_, ?_, ?_⟩
  · unfold pathRun
    rw [hLflip, hRflip, commonPart_cons_eq, commonPart_comm]
    unfold fromEsbPath
    have e1 : -(-1 : Int) = 1 := by norm_num
    have e2 : -(1 : Int) = -1 := by norm_num
    rw [fromEsbFold_zero_head, e1, e2, hM]
    dsimp only
    rw [hac, hbd]
  · have := (memQ_neg_iff left (some r) il ir (Rat.divInt (Y - X) Y)).mp
    rw [← hnegx] at this
    exact this (by simpa using hmemflip)
  · intro y hy
    have hyflip : memQ (some (-r)) (left.map fun q => -q) ir il (-y) := by
      have := (memQ_neg_iff left (some r) il ir y).mpr hy
      simpa using this
    have hyJ := (memQ_iff_memJ (some (-r)) (left.map fun q => -q) ir il (-y)).mp hyflip
    have e1 : lnum (some (-r)) = -r.num := by
      simp only [lnum]
      exact Rat.num_neg_eq_neg_num r
    have e2 : lden (some (-r)) = (r.den : Int) := by
      simp only [lden]
      rw [Rat.den_neg_eq_den]
    have e3 : rnum (left.map fun q => -q) = -(lnum left) := by
      cases left with
      | none => norm_num [rnum, lnum]
      | some l =>
        simp only [Option.map_some', rnum, lnum]
        exact Rat.num_neg_eq_neg_num l
    have e4 : rden (left.map fun q => -q) = lden left := by
      cases left with
      | none => norm_num [rden, lden]
      | some l =>
        simp only [Option.map_some', rden, lden]
        rw [Rat.den_neg_eq_den]
    rw [e1, e2, e3, e4, Rat.num_neg_eq_neg_num, Rat.den_neg_eq_den] at hyJ
    have hy1 : (1:Int) ≤ (y.den : Int) := by exact_mod_cast y.pos
    obtain ⟨ha, hb⟩ := hmin (-y.num) (y.den:Int) hy1 hyJ
    constructor
    · rw [hxnum]
      calc |Y - X| = -(Y - X) := abs_of_nonpos (by omega)
        _ = X - Y := by ring
        _ ≤ -y.num := ha
        _ ≤ |y.num| := neg_le_abs _
    · have hc : ((Rat.divInt (Y - X) Y).den : Int) ≤ (y.den : Int) := by
        rw [hxden]
        exact hb
      exact_mod_cast hc

/-- The path computation on an interval whose lower end lies strictly below
zero while the upper end admits zero: the streams disagree at their first
coefficients and the common prefix collapses to `[0]` (or `[]`), so the
result is `0`. -/
theorem pathRun_zero (left right : Option ℚ) (il ir : Bool)
    (hl : left = none → il = false) (hr : right = none → ir = false)
    (hlneg : left = none ∨ ∃ l0, left = some l0 ∧ l0.num < 0)
    (hrpos : ∀ r, right = some r → 0 < r ∨ (r = 0 ∧ ir = true)) :
    ∃ x : ℚ, pathRun left right il ir = some x ∧ memQ left right il ir x ∧
      ∀ y : ℚ, memQ left right il ir y → |x.num| ≤ |y.num| ∧ x.den ≤ y.den := by
  have hzero1 : fromEsbPath [] = some 0 := by decide
  have hzero2 : fromEsbPath [some 0] = some 0 := by decide
  have hLhead : ∃ tl, esbPathX (toXRL left) (if il then (0:Int) else 1)
      = some 0 :: tl := by
    rcases hlneg with h | ⟨l0, h, hn⟩
    · subst h
      dsimp only [esbPathX, toXRL, XR.toRatio]
      rw [esbPath_flip (Or.inl (by norm_num))]
      exact ⟨_, rfl⟩
    · subst h
      dsimp only [esbPathX, toXRL, XR.toRatio]
      rw [esbPath_flip (Or.inl hn)]
      exact ⟨_, rfl⟩
  obtain ⟨tl, hLh⟩ := hLhead
  have hRshape : esbPathX (toXRR right) (if ir then (0:Int) else -1) = []
      ∨ esbPathX (toXRR right) (if ir then (0:Int) else -1) = [none]
      ∨ ∃ q tr, esbPathX (toXRR right) (if ir then (0:Int) else -1) = some q :: tr
          ∧ 1 ≤ q := by
    cases right with
    | none =>
      have hirf : ir = false := hr rfl
      subst hirf
      exact Or.inr (Or.inl (by decide))
    | some r =>
      rcases hrpos r rfl with hp | ⟨hp, hp2⟩
      · -- positive right endpoint: the stream starts with a coefficient ≥ 1
        right
        right
        have hnum : 1 ≤ r.num := Rat.num_pos.mpr hp
        have hden : (1:Int) ≤ (r.den : Int) := by exact_mod_cast r.pos
        dsimp only [esbPathX, toXRR, XR.toRatio]
        rw [esbPath_noflip (by
          rintro (h | ⟨h1, h2⟩)
          · omega
          · omega)]
        obtain ⟨f, hf⟩ : ∃ f, esbFuel r.num (r.den:Int) = f + 1 :=
          ⟨esbFuel r.num (r.den:Int) - 1, by unfold esbFuel; omega⟩
        rw [hf]
        rw [esbLoop_cons (Or.inl (by omega)) (by omega) f]
        have hadj : b2i (decide ((if ir then (0:Int) else -1) ≤ 0)) = 1 := by
          cases ir <;> rfl
        rw [hadj]
        refine ⟨_, _, rfl, ?_⟩
        have hq := @quotient_ge_one (r.num + (r.den:Int)) (r.den:Int) true hden
          (by
            have hb : b2i true = 1 := rfl
            rw [hb]
            omega : (r.den:Int) ≤ r.num + (r.den:Int) - b2i true)
        have hb : b2i true = 1 := rfl
        rw [hb] at hq
        exact hq
      · subst hp2
        have hr0 : r = 0 := hp
        subst hr0
        exact Or.inl (by decide)
  have hmem0 : memQ left right il ir 0 := by
    constructor
    · intro l0 hl0
      rcases hlneg with h | ⟨l1, h, hn⟩
      · rw [h] at hl0
        exact absurd hl0 (by simp)
      · rw [h] at hl0
        have hinj : l1 = l0 := by injection hl0
        subst hinj
        have hlt : l1 < 0 := Rat.num_neg.mp hn
        cases il with
        | true => simpa using hlt.le
        | false => simpa using hlt
    · intro r0 hr0
      rcases hrpos r0 hr0 with hp | ⟨hp, hp2⟩
      · cases ir with
        | true => simpa using hp.le
        | false => simpa using hp
      · rw [hp2, hp]
        simp
  have hmin0 : ∀ y : ℚ, memQ left right il ir y →
      |(0:ℚ).num| ≤ |y.num| ∧ (0:ℚ).den ≤ y.den := by
    intro y _
    constructor
    · have h0 : |(0:ℚ).num| = 0 := by norm_num
      rw [h0]
      exact abs_nonneg _
    · have h0 : (0:ℚ).den = 1 := rfl
      rw [h0]
      exact y.pos
  refine ⟨0, ?_, hmem0, hmin0⟩
  unfold pathRun
  rw [hLh]
  rcases hRshape with h | h | ⟨q, tr, h, hq⟩
  · rw [h, commonPart_nil_right, hzero1]
  · rw [h]
    have hcp : commonPart (some 0 :: tl) [none] = [some 0] := by
      simp [commonPart, minO]
    rw [hcp, hzero2]
  · rw [h]
    have hne0 : ¬ (some (0:Int) = some q) := by
      simp only [Option.some.injEq]
      omega
    have hcp : commonPart (some 0 :: tl) (some q :: tr) = [some 0] := by
      simp only [commonPart, if_neg hne0, minO]
      rw [min_eq_left (by omega : (0:Int) ≤ q)]
    rw [hcp, hzero2]

/-- The path computation on any valid nonempty interval produces the member
of the interval dominated (in numerator magnitude and denominator) by every
member. -/
theorem path_result (left right : Option ℚ) (il ir : Bool)
    (hl : left = none → il = false) (hr : right = none → ir = false)
    (hne : NonemptyI left right il ir) :
    ∃ x : ℚ, pathRun left right il ir = some x ∧ memQ left right il ir x ∧
      ∀ y : ℚ, memQ left right il ir y → |x.num| ≤ |y.num| ∧ x.den ≤ y.den := by
  by_cases hneg : ∃ r, right = some r ∧ (r < 0 ∨ (r = 0 ∧ ir = false))
  · obtain ⟨r, hre, hc⟩ := hneg
    subst hre
    exact pathRun_neg left il ir r hl hne hc
  · push_neg at hneg
    have hrpos : ∀ r, right = some r → 0 < r ∨ (r = 0 ∧ ir = true) := by
      intro r hr0
      have h2 := hneg r hr0
      push_neg at h2
      rcases lt_trichotomy r 0 with h | h | h
      · exact absurd h (not_lt.mpr h2.1)
      · refine Or.inr ⟨h, ?_⟩
        have h3 := h2.2 h
        cases hir : ir with
        | false => exact absurd hir h3
        | true => rfl
      · exact Or.inl h
    cases left with
    | none =>
      exact pathRun_zero none right il ir hl hr (Or.inl rfl) hrpos
    | some l =>
      by_cases hln : 0 ≤ l.num
      · exact pathRun_pos right il ir l hln hr hne hrpos
      · exact pathRun_zero (some l) right il ir hl hr (Or.inr ⟨l, rfl, by omega⟩) hrpos

/-- The emptiness guard of the path implementation accepts every valid
nonempty interval. -/
theorem lexGt_false (left right : Option ℚ) (il ir : Bool)
    (hl : left = none → il = false) (hr : right = none → ir = false)
    (hne : NonemptyI left right il ir) :
    lexGt (toXRL left) (if il then (0:Int) else 1) (toXRR right)
      (if ir then (0:Int) else -1) = false := by
  cases left with
  | none =>
    cases right with
    | none => simp [lexGt, XR.ltB, toXRL, toXRR]
    | some r => simp [lexGt, XR.ltB, toXRL, toXRR]
  | some l =>
    cases right with
    | none => simp [lexGt, XR.ltB, toXRL, toXRR]
    | some r =>
      unfold NonemptyI at hne
      rcases hne with h | ⟨h, h2, h3⟩
      · simp [lexGt, XR.ltB, toXRL, toXRR, not_lt.mpr h.le, h.ne]
      · subst h
        subst h2
        subst h3
        simp [lexGt, XR.ltB, toXRL, toXRR]

theorem sIIP_unfold (left right : Option ℚ) (il ir : Bool) :
    simplestInIntervalPath (toXRL left) il (toXRR right) ir
      = if lexGt (toXRL left) (if il then (0:Int) else 1) (toXRR right)
            (if ir then (0:Int) else -1)
        then Except.error "empty interval"
        else Except.ok (pathRun left right il ir) := rfl

/-- On every valid nonempty interval the path implementation succeeds and
returns the value of the matrix implementation's search. -/
theorem path_agrees (left right : Option ℚ) (il ir : Bool)
    (hl : left = none → il = false) (hr : right = none → ir = false)
    (hne : NonemptyI left right il ir) :
    simplestInIntervalPath (toXRL left) il (toXRR right) ir
      = .ok (some (siiCore left right il ir)) := by
  obtain ⟨x, hx, hmem, hmin⟩ := path_result left right il ir hl hr hne
  obtain ⟨hcmem, _⟩ := siiCore_spec left right il ir hl hr hne
  obtain ⟨h1, h2⟩ := hmin (siiCore left right il ir) hcmem
  have hxeq : x = siiCore left right il ir :=
    siiCore_eq_of_simpler left right il ir hl hr hne x hmem h1 h2
  rw [sIIP_unfold, lexGt_false left right il ir hl hr hne]
  simp only [Bool.false_eq_true, if_false]
  rw [hx, hxeq]

/-- C9: on every valid nonempty interval, the run-length path
implementation `simplest_in_interval` of `__init__.py` and the matrix-loop
implementation `_simplest_in_interval` of `_simplest_in_interval.py` return
the same fraction. -/
theorem C9_implementations_agree (left right : Option ℚ) (il ir : Bool)
    (hl : left = none → il = false) (hr : right = none → ir = false)
    (hne : NonemptyI left right il ir) :
    ∃ x : ℚ, simplestInInterval left right il ir = .ok x ∧
      simplestInIntervalPath (toXRL left) il (toXRR right) ir = .ok (some x) := by
  refine ⟨siiCore left right il ir, ?_, path_agrees left right il ir hl hr hne⟩
  exact (simplestInInterval_spec left right il ir hl hr hne).1

theorem C9_witness :
    NonemptyI (some (1/3 : ℚ)) (some (1/2 : ℚ)) false false ∧
      ∃ x : ℚ, simplestInInterval (some (1/3 : ℚ)) (some (1/2 : ℚ)) false false = .ok x ∧
        simplestInIntervalPath (toXRL (some (1/3 : ℚ))) false
          (toXRR (some (1/2 : ℚ))) false = .ok (some x) :=
  ⟨Or.inl (by norm_num),
    C9_implementations_agree (some (1/3)) (some (1/2)) false false
      (fun h => absurd h (by simp)) (fun h => absurd h (by simp))
      (Or.inl (by norm_num))⟩

/-! ### Negation symmetry and the float entry point -/

/-- Negating a valid nonempty interval negates its simplest fraction. -/
theorem siiCore_neg (left right : Option ℚ) (il ir : Bool)
    (hl : left = none → il = false) (hr : right = none → ir = false)
    (hne : NonemptyI left right il ir) :
    siiCore (right.map fun q => -q) (left.map fun q => -q) ir il
      = -siiCore left right il ir := by
  have hl' : (right.map fun q => -q) = none → ir = false := by
    cases right with
    | none => exact fun _ => hr rfl
    | some r => intro h; exact absurd h (by simp)
  have hr' : (left.map fun q => -q) = none → il = false := by
    cases left with
    | none => exact fun _ => hl rfl
    | some l => intro h; exact absurd h (by simp)
  have hne' : NonemptyI (right.map fun q => -q) (left.map fun q => -q) ir il := by
    cases left with
    | none =>
      cases right with
      | none => trivial
      | some r => trivial
    | some l =>
      cases right with
      | none => trivial
      | some r =>
        unfold NonemptyI at hne ⊢
        simp only [Option.map_some']
        rcases hne with h | ⟨h, h2, h3⟩
        · exact Or.inl (neg_lt_neg h)
        · exact Or.inr ⟨by rw [h], h3, h2⟩
  obtain ⟨hmem, hmin⟩ := siiCore_spec left right il ir hl hr hne
  obtain ⟨hmem', _⟩ := siiCore_spec (right.map fun q => -q) (left.map fun q => -q)
    ir il hl' hr' hne'
  have hyneg : memQ (right.map fun q => -q) (left.map fun q => -q) ir il
      (-(siiCore left right il ir)) :=
    (memQ_neg_iff left right il ir (siiCore left right il ir)).mpr hmem
  have hs'mem : memQ left right il ir
      (-(siiCore (right.map fun q => -q) (left.map fun q => -q) ir il)) := by
    have h2 := (memQ_neg_iff left right il ir
      (-(siiCore (right.map fun q => -q) (left.map fun q => -q) ir il))).mp
    rw [neg_neg] at h2
    exact h2 hmem'
  obtain ⟨hd1, hd2⟩ := hmin _ hs'mem
  rw [Rat.num_neg_eq_neg_num, abs_neg] at hd1
  rw [Rat.den_neg_eq_den] at hd2
  refine (siiCore_eq_of_simpler (right.map fun q => -q) (left.map fun q => -q) ir il
    hl' hr' hne' (-(siiCore left right il ir)) hyneg ?_ ?_).symm
  · rw [Rat.num_neg_eq_neg_num, abs_neg]
    exact hd1
  · rw [Rat.den_neg_eq_den]
    exact hd2

/-- Setting the sign bit negates the decoded value. -/
theorem decodeF_flip (p : Nat) (hp : p < 2 ^ 63) :
    decodeF (p + 2 ^ 63) = -decodeF p := by
  have a52 : (2:ℕ)^52 = 4503599627370496 := by norm_num
  have a63 : (2:ℕ)^63 = 9223372036854775808 := by norm_num
  have a11 : (2:ℕ)^11 = 2048 := by norm_num
  have hp' : p < 9223372036854775808 := by rw [a63] at hp; exact hp
  have hs1 : (p + 2^63) / 2^63 = 1 := by rw [a63]; omega
  have hs0 : p / 2^63 = 0 := by rw [a63]; omega
  have he : (p + 2^63) / 2^52 % 2^11 = p / 2^52 % 2^11 := by
    rw [a63, a52, a11]
    omega
  have hm : (p + 2^63) % 2^52 = p % 2^52 := by
    rw [a63, a52]
    omega
  unfold decodeF
  rw [hs1, hs0, he, hm]
  norm_num

theorem decodeF_zero : decodeF 0 = 0 := by
  unfold decodeF
  norm_num

theorem decodeF_sign_zero : decodeF (2 ^ 63) = 0 := by
  unfold decodeF
  norm_num

/-- Patterns without the sign bit decode to nonnegative values. -/
theorem decodeF_nonneg (p : Nat) (hp : p < 2 ^ 63) : 0 ≤ decodeF p := by
  have a63 : (2:ℕ)^63 = 9223372036854775808 := by norm_num
  have hp' : p < 9223372036854775808 := by rw [a63] at hp; exact hp
  have hs0 : p / 2^63 = 0 := by rw [a63]; omega
  unfold decodeF
  rw [hs0]
  have h0 : ¬ (0:ℕ) = 1 := by omega
  rw [if_neg h0]
  split
  · positivity
  · positivity

theorem isFiniteP_flip {p : Nat} (hp : isFiniteP p) (h63 : p < 2 ^ 63) :
    isFiniteP (p + 2 ^ 63) := by
  obtain ⟨h1, h2⟩ := hp
  have a52 : (2:ℕ)^52 = 4503599627370496 := by norm_num
  have a63 : (2:ℕ)^63 = 9223372036854775808 := by norm_num
  have a11 : (2:ℕ)^11 = 2048 := by norm_num
  constructor
  · have a64 : (2:ℕ)^64 = 18446744073709551616 := by norm_num
    rw [a64]
    rw [a63] at h63 ⊢
    omega
  · have he : (p + 2^63) / 2^52 % 2^11 = p / 2^52 % 2^11 := by
      rw [a63, a52, a11] at *
      omega
    rw [he]
    exact h2

/-- A finite pattern without the sign bit is at most the largest finite
pattern. -/
theorem finite_le_max {p : Nat} (hp : isFiniteP p) (h63 : p < 2 ^ 63) :
    p ≤ maxFinitePattern := by
  obtain ⟨_, h2⟩ := hp
  have a52 : (2:ℕ)^52 = 4503599627370496 := by norm_num
  have a63 : (2:ℕ)^63 = 9223372036854775808 := by norm_num
  have a11 : (2:ℕ)^11 = 2048 := by norm_num
  have hmax : maxFinitePattern = 9218868437227405311 := by
    unfold maxFinitePattern pinfPattern
    norm_num
  rw [hmax]
  rw [a63] at h63
  rw [a52, a11] at h2
  omega

theorem iRTP_zero : intervalRoundingToPos 0
    = (-((decodeF 0 + decodeF 1) / 2), (decodeF 0 + decodeF 1) / 2, true) := by
  unfold intervalRoundingToPos
  rw [if_pos decodeF_zero]

theorem iRTP_sign_zero : intervalRoundingToPos (2 ^ 63) = intervalRoundingToPos 0 := by
  unfold intervalRoundingToPos
  rw [if_pos decodeF_sign_zero, if_pos decodeF_zero, decodeF_sign_zero, decodeF_zero]

theorem iRT_pos (p : Nat) (hp1 : 1 ≤ p) (hp2 : p ≤ maxFinitePattern) :
    intervalRoundingTo p = intervalRoundingToPos p := by
  unfold intervalRoundingTo
  rw [if_neg (not_lt.mpr (decodeF_pos p hp1 hp2).le)]

theorem iRT_zero : intervalRoundingTo 0 = intervalRoundingToPos 0 := by
  unfold intervalRoundingTo
  rw [if_neg (by rw [decodeF_zero]; exact lt_irrefl 0)]

theorem iRT_sign_zero : intervalRoundingTo (2 ^ 63) = intervalRoundingToPos 0 := by
  unfold intervalRoundingTo
  rw [if_neg (by rw [decodeF_sign_zero]; exact lt_irrefl 0), iRTP_sign_zero]

theorem iRT_negpat (p : Nat) (hp1 : 1 ≤ p) (hp2 : p ≤ maxFinitePattern) :
    intervalRoundingTo (p + 2 ^ 63)
      = (-(intervalRoundingToPos p).2.1, -(intervalRoundingToPos p).1,
          (intervalRoundingToPos p).2.2) := by
  have h63 : p < 2 ^ 63 := by
    have hb : maxFinitePattern < 2 ^ 63 := by
      unfold maxFinitePattern pinfPattern
      norm_num
    omega
  have hneg : decodeF (p + 2 ^ 63) < 0 := by
    rw [decodeF_flip p h63]
    exact neg_lt_zero.mpr (decodeF_pos p hp1 hp2)
  unfold intervalRoundingTo
  rw [if_pos hneg]
  have hsub : p + 2 ^ 63 - 2 ^ 63 = p := by omega
  rw [hsub]
  rfl

theorem roundingPos_eq (p : Nat) (hp1 : 1 ≤ p) (hp2 : p ≤ maxFinitePattern) :
    intervalRoundingToPos p =
      ((decodeF p + decodeF (p - 1)) / 2,
        (if p = maxFinitePattern then
          2 * decodeF p - (decodeF p + decodeF (p - 1)) / 2
        else (decodeF p + decodeF (p + 1)) / 2),
        decide (p % 2 = 0)) := by
  have hpos : 0 < decodeF p := decodeF_pos p hp1 hp2
  have hpm : pinfPattern = maxFinitePattern + 1 := by
    unfold maxFinitePattern pinfPattern
    norm_num
  unfold intervalRoundingToPos
  rw [if_neg hpos.ne']
  dsimp only
  by_cases hmf : p = maxFinitePattern
  · rw [if_pos (by omega : p + 1 = pinfPattern), if_pos hmf]
  · rw [if_neg (by omega : ¬ p + 1 = pinfPattern), if_neg hmf]

theorem roundingPos_bounds (p : Nat) (hp1 : 1 ≤ p) (hp2 : p ≤ maxFinitePattern) :
    (decodeF p + decodeF (p - 1)) / 2 < decodeF p ∧
    decodeF p < (if p = maxFinitePattern then
        2 * decodeF p - (decodeF p + decodeF (p - 1)) / 2
      else (decodeF p + decodeF (p + 1)) / 2) := by
  have hm1 : decodeF (p - 1) < decodeF p := by
    have := decodeF_lt_succ (p - 1) (by omega)
    rwa [Nat.sub_add_cancel hp1] at this
  constructor
  · linarith
  · by_cases hmf : p = maxFinitePattern
    · rw [if_pos hmf]
      linarith
    · rw [if_neg hmf]
      have := decodeF_lt_succ p (by omega)
      linarith

theorem sFF_at (p : Nat) (hp : isFiniteP p) (L R : ℚ) (c : Bool)
    (h : intervalRoundingTo p = (L, R, c)) (hLR : L < R) :
    simplestFromFloat p = .ok (some (siiCore (some L) (some R) c c)) := by
  have hunf : simplestFromFloat p
      = simplestInIntervalPath (toXRL (some L)) c (toXRR (some R)) c := by
    unfold simplestFromFloat
    rw [if_pos hp, h]
    rfl
  rw [hunf]
  exact path_agrees (some L) (some R) c c (by simp) (by simp) (Or.inl hLR)

theorem zeroR_pos : 0 < (decodeF 0 + decodeF 1) / 2 := by
  have h1 : 0 < decodeF 1 := by
    refine decodeF_pos 1 (le_refl 1) ?_
    unfold maxFinitePattern pinfPattern
    norm_num
  rw [decodeF_zero]
  linarith

/-- The simplest fraction of a symmetric closed interval around zero is
zero. -/
theorem siiCore_symm_zero (R : ℚ) (hR : 0 < R) :
    siiCore (some (-R)) (some R) true true = 0 := by
  have hne : NonemptyI (some (-R)) (some R) true true := Or.inl (by linarith)
  have hmemz : memQ (some (-R)) (some R) true true 0 := by
    constructor
    · intro z hz
      have hz' : -R = z := by injection hz
      rw [← hz']
      simp only [if_true]
      linarith
    · intro z hz
      have hz' : R = z := by injection hz
      rw [← hz']
      simp only [if_true]
      linarith
  refine (siiCore_eq_of_simpler (some (-R)) (some R) true true
    (by simp) (by simp) hne 0 hmemz ?_ ?_).symm
  · have h0 : (0:ℚ).num = 0 := rfl
    rw [h0]
    simpa using abs_nonneg _
  · have h0 : (0:ℚ).den = 1 := rfl
    rw [h0]
    exact (siiCore (some (-R)) (some R) true true).pos

/-- Modelled from the spec: the set of reals that round to the nonnegative
finite double of pattern `p` under round-ties-to-even — for zero, the
symmetric closed interval bounded by half the smallest positive subnormal;
otherwise the interval between the midpoints with the adjacent
representable doubles (with the reflected right bound for the largest
finite double), closed exactly when the bit pattern is even. -/
def specRoundsToPos (r : ℚ) (p : Nat) : Prop :=
  if decodeF p = 0 then |r| ≤ decodeF 1 / 2
  else if p % 2 = 0 then
    (decodeF p + decodeF (p - 1)) / 2 ≤ r ∧
      r ≤ (if p = maxFinitePattern then
            2 * decodeF p - (decodeF p + decodeF (p - 1)) / 2
          else (decodeF p + decodeF (p + 1)) / 2)
  else
    (decodeF p + decodeF (p - 1)) / 2 < r ∧
      r < (if p = maxFinitePattern then
            2 * decodeF p - (decodeF p + decodeF (p - 1)) / 2
          else (decodeF p + decodeF (p + 1)) / 2)

/-- Modelled from the spec: round-ties-to-even is sign-symmetric, so a real
rounds to a double with the sign bit set iff its negation rounds to the
double with the sign bit cleared. -/
def specRoundsTo (r : ℚ) (p : Nat) : Prop :=
  if p < 2 ^ 63 then specRoundsToPos r p else specRoundsToPos (-r) (p - 2 ^ 63)

theorem specRTP_of_mem (p : Nat) (hp1 : 1 ≤ p) (hp2 : p ≤ maxFinitePattern) (t L R : ℚ)
    (hLdef : L = (decodeF p + decodeF (p - 1)) / 2)
    (hRdef : R = (if p = maxFinitePattern then
        2 * decodeF p - (decodeF p + decodeF (p - 1)) / 2
      else (decodeF p + decodeF (p + 1)) / 2))
    (h1 : if (decide (p % 2 = 0) : Bool) then L ≤ t else L < t)
    (h2 : if (decide (p % 2 = 0) : Bool) then t ≤ R else t < R) :
    specRoundsToPos t p := by
  subst hLdef
  subst hRdef
  unfold specRoundsToPos
  rw [if_neg (decodeF_pos p hp1 hp2).ne']
  by_cases hcp : p % 2 = 0
  · have hd : (decide (p % 2 = 0) : Bool) = true := decide_eq_true hcp
    rw [hd] at h1 h2
    simp only [if_true] at h1 h2
    rw [if_pos hcp]
    exact ⟨h1, h2⟩
  · have hd : (decide (p % 2 = 0) : Bool) = false := decide_eq_false hcp
    rw [hd] at h1 h2
    simp only [Bool.false_eq_true, if_false] at h1 h2
    rw [if_neg hcp]
    exact ⟨h1, h2⟩

theorem isFiniteP_unflip {q : Nat} (hp : isFiniteP (q + 2 ^ 63)) : isFiniteP q := by
  obtain ⟨h1, h2⟩ := hp
  have a52 : (2:ℕ)^52 = 4503599627370496 := by norm_num
  have a63 : (2:ℕ)^63 = 9223372036854775808 := by norm_num
  have a11 : (2:ℕ)^11 = 2048 := by norm_num
  have hq63 : q < 2 ^ 63 := by
    have a64 : (2:ℕ)^64 = 18446744073709551616 := by norm_num
    rw [a64] at h1
    rw [a63]
    omega
  refine ⟨by omega, ?_⟩
  have he : (q + 2 ^ 63) / 2 ^ 52 % 2 ^ 11 = q / 2 ^ 52 % 2 ^ 11 := by
    rw [a63] at hq63
    rw [a52, a63, a11]
    omega
  rw [← he]
  exact h2

/-- For a positive finite double, `simplest_from_float` succeeds, its result
lies in the spec's rounding interval, and the sign-flipped pattern yields
the negated result. -/
theorem sFF_pos_full (p : Nat) (hp : isFiniteP p) (hp1 : 1 ≤ p) (h63 : p < 2 ^ 63) :
    ∃ r : ℚ, simplestFromFloat p = .ok (some r) ∧ specRoundsToPos r p ∧
      simplestFromFloat (p + 2 ^ 63) = .ok (some (-r)) := by
  have hp2 : p ≤ maxFinitePattern := finite_le_max hp h63
  obtain ⟨hb1, hb2⟩ := roundingPos_bounds p hp1 hp2
  set L : ℚ := (decodeF p + decodeF (p - 1)) / 2 with hLdef
  set Rr : ℚ := (if p = maxFinitePattern then
      2 * decodeF p - (decodeF p + decodeF (p - 1)) / 2
    else (decodeF p + decodeF (p + 1)) / 2) with hRdef
  have hLR : L < Rr := hb1.trans hb2
  have hint : intervalRoundingTo p = (L, Rr, decide (p % 2 = 0)) := by
    rw [iRT_pos p hp1 hp2, roundingPos_eq p hp1 hp2]
  have hff := sFF_at p hp L Rr (decide (p % 2 = 0)) hint hLR
  have hnint : intervalRoundingTo (p + 2 ^ 63) = (-Rr, -L, decide (p % 2 = 0)) := by
    rw [iRT_negpat p hp1 hp2, roundingPos_eq p hp1 hp2]
  have hfin' : isFiniteP (p + 2 ^ 63) := isFiniteP_flip hp h63
  have hnff := sFF_at (p + 2 ^ 63) hfin' (-Rr) (-L) (decide (p % 2 = 0)) hnint
    (by linarith)
  have hneg : siiCore (some (-Rr)) (some (-L)) (decide (p % 2 = 0)) (decide (p % 2 = 0))
      = -(siiCore (some L) (some Rr) (decide (p % 2 = 0)) (decide (p % 2 = 0))) := by
    have hsn := siiCore_neg (some L) (some Rr) (decide (p % 2 = 0)) (decide (p % 2 = 0))
      (by simp) (by simp) (Or.inl hLR)
    simpa using hsn
  rw [hneg] at hnff
  refine ⟨siiCore (some L) (some Rr) (decide (p % 2 = 0)) (decide (p % 2 = 0)),
    hff, ?_, hnff⟩
  obtain ⟨hmem, _⟩ := siiCore_spec (some L) (some Rr) (decide (p % 2 = 0))
    (decide (p % 2 = 0)) (by simp) (by simp) (Or.inl hLR)
  exact specRTP_of_mem p hp1 hp2 _ L Rr hLdef hRdef (hmem.1 L rfl) (hmem.2 Rr rfl)

/-- C3: for every finite double, `simplest_from_float` succeeds and its
result lies in the spec's set of reals rounding to that double — so
converting it back under round-ties-to-even reproduces the input. -/
theorem C3_float_round_trip (p : Nat) (hp : isFiniteP p) :
    ∃ r : ℚ, simplestFromFloat p = .ok (some r) ∧ specRoundsTo r p := by
  have hhalf : 0 < decodeF 1 / 2 := by
    have hz := zeroR_pos
    rw [decodeF_zero] at hz
    linarith
  by_cases h63 : p < 2 ^ 63
  · by_cases hp0 : p = 0
    · subst hp0
      have hint : intervalRoundingTo 0
          = (-((decodeF 0 + decodeF 1) / 2), (decodeF 0 + decodeF 1) / 2, true) := by
        rw [iRT_zero, iRTP_zero]
      have hff := sFF_at 0 hp _ _ _ hint (by linarith [zeroR_pos])
      rw [siiCore_symm_zero _ zeroR_pos] at hff
      refine ⟨0, hff, ?_⟩
      unfold specRoundsTo
      rw [if_pos h63]
      unfold specRoundsToPos
      rw [if_pos decodeF_zero, abs_zero]
      linarith
    · have hp1 : 1 ≤ p := by omega
      obtain ⟨r, hff, hspec, _⟩ := sFF_pos_full p hp hp1 h63
      refine ⟨r, hff, ?_⟩
      unfold specRoundsTo
      rw [if_pos h63]
      exact hspec
  · push_neg at h63
    obtain ⟨q, rfl⟩ : ∃ q, p = q + 2 ^ 63 := ⟨p - 2 ^ 63, by omega⟩
    have hqfin : isFiniteP q := isFiniteP_unflip hp
    have hq63 : q < 2 ^ 63 := by
      obtain ⟨hlt, _⟩ := hp
      omega
    by_cases hq0 : q = 0
    · subst hq0
      have he0 : (0:ℕ) + 2 ^ 63 = 2 ^ 63 := by norm_num
      rw [he0] at hp ⊢
      have hint : intervalRoundingTo (2 ^ 63)
          = (-((decodeF 0 + decodeF 1) / 2), (decodeF 0 + decodeF 1) / 2, true) := by
        rw [iRT_sign_zero, iRTP_zero]
      have hff := sFF_at (2 ^ 63) hp _ _ _ hint (by linarith [zeroR_pos])
      rw [siiCore_symm_zero _ zeroR_pos] at hff
      refine ⟨0, hff, ?_⟩
      unfold specRoundsTo
      rw [if_neg (lt_irrefl (2 ^ 63))]
      have hsub : (2:ℕ) ^ 63 - 2 ^ 63 = 0 := by omega
      rw [hsub]
      unfold specRoundsToPos
      rw [if_pos decodeF_zero, neg_zero, abs_zero]
      linarith
    · have hq1 : 1 ≤ q := by omega
      obtain ⟨r, _, hspec, hnff⟩ := sFF_pos_full q hqfin hq1 hq63
      refine ⟨-r, hnff, ?_⟩
      unfold specRoundsTo
      rw [if_neg (by omega : ¬ q + 2 ^ 63 < 2 ^ 63)]
      have hsub : q + 2 ^ 63 - 2 ^ 63 = q := by omega
      rw [hsub, neg_neg]
      exact hspec

theorem C3_witness :
    isFiniteP 0 ∧
      ∃ r : ℚ, simplestFromFloat 0 = .ok (some r) ∧ specRoundsTo r 0 :=
  ⟨by decide, C3_float_round_trip 0 (by decide)⟩

/-- The bit pattern of the negated double: the sign bit flipped. -/
def negF (p : Nat) : Nat := if p < 2 ^ 63 then p + 2 ^ 63 else p - 2 ^ 63

/-- C10: for every finite double, `simplest_from_float` of the negated
double is the negation of `simplest_from_float` of the double; in
particular `simplest_from_float(-0.0)` is `0`. -/
theorem C10_negation_symmetry (p : Nat) (hp : isFiniteP p) :
    (∃ r : ℚ, simplestFromFloat p = .ok (some r) ∧
      simplestFromFloat (negF p) = .ok (some (-r))) ∧
    simplestFromFloat (2 ^ 63) = .ok (some 0) := by
  have hfin63 : isFiniteP (2 ^ 63) := by decide
  have hzint : intervalRoundingTo (2 ^ 63)
      = (-((decodeF 0 + decodeF 1) / 2), (decodeF 0 + decodeF 1) / 2, true) := by
    rw [iRT_sign_zero, iRTP_zero]
  have hzero63 : simplestFromFloat (2 ^ 63) = .ok (some 0) := by
    have hff := sFF_at (2 ^ 63) hfin63 _ _ _ hzint (by linarith [zeroR_pos])
    rw [siiCore_symm_zero _ zeroR_pos] at hff
    exact hff
  have hzero0 : simplestFromFloat 0 = .ok (some 0) := by
    have hint : intervalRoundingTo 0
        = (-((decodeF 0 + decodeF 1) / 2), (decodeF 0 + decodeF 1) / 2, true) := by
      rw [iRT_zero, iRTP_zero]
    have hff := sFF_at 0 (by decide) _ _ _ hint (by linarith [zeroR_pos])
    rw [siiCore_symm_zero _ zeroR_pos] at hff
    exact hff
  refine ⟨?_, hzero63⟩
  by_cases h63 : p < 2 ^ 63
  · by_cases hp0 : p = 0
    · subst hp0
      refine ⟨0, hzero0, ?_⟩
      have hnf : negF 0 = 2 ^ 63 := by
        unfold negF
        rw [if_pos (by norm_num : (0:ℕ) < 2 ^ 63)]
        norm_num
      rw [hnf, neg_zero]
      exact hzero63
    · have hp1 : 1 ≤ p := by omega
      obtain ⟨r, hff, _, hnff⟩ := sFF_pos_full p hp hp1 h63
      refine ⟨r, hff, ?_⟩
      have hnf : negF p = p + 2 ^ 63 := by
        unfold negF
        rw [if_pos h63]
      rw [hnf]
      exact hnff
  · push_neg at h63
    obtain ⟨q, rfl⟩ : ∃ q, p = q + 2 ^ 63 := ⟨p - 2 ^ 63, by omega⟩
    have hqfin : isFiniteP q := isFiniteP_unflip hp
    have hq63 : q < 2 ^ 63 := by
      obtain ⟨hlt, _⟩ := hp
      omega
    have hnf : negF (q + 2 ^ 63) = q := by
      unfold negF
      rw [if_neg (by omega : ¬ q + 2 ^ 63 < 2 ^ 63)]
      omega
    by_cases hq0 : q = 0
    · subst hq0
      have he0 : (0:ℕ) + 2 ^ 63 = 2 ^ 63 := by norm_num
      rw [he0] at hnf ⊢
      refine ⟨0, hzero63, ?_⟩
      rw [hnf, neg_zero]
      exact hzero0
    · have hq1 : 1 ≤ q := by omega
      obtain ⟨r, hqff, _, hnff2⟩ := sFF_pos_full q hqfin hq1 hq63
      refine ⟨-r, hnff2, ?_⟩
      rw [hnf, neg_neg]
      exact hqff

theorem C10_witness :
    isFiniteP 1 ∧
      ((∃ r : ℚ, simplestFromFloat 1 = .ok (some r) ∧
        simplestFromFloat (negF 1) = .ok (some (-r))) ∧
      simplestFromFloat (2 ^ 63) = .ok (some 0)) :=
  ⟨by decide, C10_negation_symmetry 1 (by decide)⟩

end SimpleFractions
